import Mathlib

/-!
Shallow embedding of `bin/json_tree_viewer.py` (a JSON ASCII-tree viewer with
sibling grouping, path-guided traversal and substring search) together with
proofs about the claims of its specification.

JSON values are modelled as a tagged union; Python dicts are ordered key/value
lists (JSON objects parsed by `json.load` have unique keys, which is expressed
as a well-formedness predicate where a proof needs it).  Python's stable
`list.sort` is modelled by a stable insertion sort, and string comparison by
code-point lexicographic order on the character lists, which is Python's
string order.
-/

/-- A step of a target path: an object key or an array index
(`--path` is a JSON list of strings and integers). -/
inductive Step where
  | key (k : String)
  | idx (i : Int)
deriving DecidableEq, Repr

/-- A parsed JSON document (the input of `print_tree`). -/
inductive Json where
  | null
  | bool (b : Bool)
  | num (n : Int)
  | str (s : String)
  | obj (entries : List (String × Json))
  | arr (items : List Json)

/-- The interest tree built by `build_interest_tree`: a mapping from child
keys / indices to nested interest trees. -/
inductive ITree where
  | mk (entries : List (Step × ITree))

def ITree.entries : ITree → List (Step × ITree)
  | .mk es => es

/-- Python `in` on strings: contiguous-substring containment. -/
def strContains (s q : String) : Bool := decide (q.data <:+: s.data)

/-- Whitespace as Python's `\S` complement sees it (ASCII range). -/
def pyIsSpace (c : Char) : Bool :=
  c = ' ' || c = '\t' || c = '\n' || c = '\r' || c = '\x0b' || c = '\x0c'

/-- Code-point lexicographic strict order on character lists
(Python's `<` on strings). -/
def lexLt : List Char → List Char → Bool
  | [], [] => false
  | [], _ :: _ => true
  | _ :: _, [] => false
  | a :: as, b :: bs => if a < b then true else if b < a then false else lexLt as bs

/-- Non-strict string comparison used for sorting (`a ≤ b` iff `¬ b < a`). -/
def strLe (a b : String) : Bool := !(lexLt b.data a.data)

/-- Stable insertion into a sorted list: `a` goes before the first element it
compares `≤` to, so earlier elements win ties (stability). -/
def insertS (le : α → α → Bool) (a : α) : List α → List α
  | [] => [a]
  | b :: bs => if le a b then a :: b :: bs else b :: insertS le a bs

/-- Stable sort (models Python's stable ascending `list.sort`). -/
def sortByLe (le : α → α → Bool) : List α → List α
  | [] => []
  | a :: rest => insertS le a (sortByLe le rest)

/-- First value bound to `k` in an entry list (Python `dict` lookup; keys of a
parsed JSON object are unique, so the first binding is the binding). -/
def lookupJ : List (String × Json) → String → Option Json
  | [], _ => none
  | (k', v) :: rest, k => if k' = k then some v else lookupJ rest k

/-- `node[key]` for objects; total with a `null` placeholder that is never hit
on keys taken from the object itself. -/
def jlookup (es : List (String × Json)) (k : String) : Json :=
  (lookupJ es k).getD Json.null

/-- `node[i]` for arrays, `none` when out of bounds. -/
def jgetOpt (l : List Json) (i : Int) : Option Json :=
  if h : 0 ≤ i ∧ i.toNat < l.length then some (l.get ⟨i.toNat, h.2⟩) else none

/-- Total version of array indexing with a `null` placeholder. -/
def jget (l : List Json) (i : Int) : Json :=
  (jgetOpt l i).getD Json.null

mutual
/-- `build_interest_tree(node, query)`: returns `(has_match, interest_tree)`;
a string matches iff it contains the query, containers collect the children
that matched, other scalars never match. -/
def buildInterestTree : Json → String → Bool × ITree
  | .str s, q => (strContains s q, .mk [])
  | .obj es, q =>
      let cs := interestChildrenObj es q
      (cs.any (fun c => c.2.1),
       .mk (cs.filterMap (fun c => if c.2.1 then some (c.1, c.2.2) else none)))
  | .arr items, q =>
      let cs := interestChildrenArr items 0 q
      (cs.any (fun c => c.2.1),
       .mk (cs.filterMap (fun c => if c.2.1 then some (c.1, c.2.2) else none)))
  | _, _ => (false, .mk [])

/-- The loop body of `build_interest_tree` over `node.items()`. -/
def interestChildrenObj : List (String × Json) → String → List (Step × Bool × ITree)
  | [], _ => []
  | (k, v) :: rest, q =>
      (Step.key k, buildInterestTree v q) :: interestChildrenObj rest q

/-- The loop body of `build_interest_tree` over `enumerate(node)`. -/
def interestChildrenArr : List Json → Nat → String → List (Step × Bool × ITree)
  | [], _, _ => []
  | v :: rest, i, q =>
      (Step.idx (Int.ofNat i), buildInterestTree v q) :: interestChildrenArr rest (i + 1) q
end

mutual
/-- Well-formedness of a value as produced by `json.load`: every object level
has pairwise distinct keys. -/
def wfB : Json → Bool
  | .obj es => decide ((es.map Prod.fst).Nodup) && wfEntriesB es
  | .arr items => wfItemsB items
  | _ => true

def wfEntriesB : List (String × Json) → Bool
  | [] => true
  | (_, v) :: rest => wfB v && wfEntriesB rest

def wfItemsB : List Json → Bool
  | [] => true
  | v :: rest => wfB v && wfItemsB rest
end

/-- The value denoted by a path: follow object keys and in-bounds array
indices from the root. -/
def getPath : Json → List Step → Option Json
  | v, [] => some v
  | .obj es, .key k :: rest =>
      match lookupJ es k with
      | some v => getPath v rest
      | none => none
  | .arr l, .idx i :: rest =>
      match jgetOpt l i with
      | some v => getPath v rest
      | none => none
  | _, _ => none

/-- A path hits a string leaf containing the query. -/
def matchPathB (v : Json) (q : String) (p : List Step) : Bool :=
  match getPath v p with
  | some (.str s) => strContains s q
  | _ => false

/-- Lookup of one step among the children of an interest tree node. -/
def lookupIT : List (Step × ITree) → Step → Option ITree
  | [], _ => none
  | (s', t) :: rest, s => if s' = s then some t else lookupIT rest s

/-- Python `interest_tree.get(step)`. -/
def ITree.find (t : ITree) (s : Step) : Option ITree := lookupIT t.entries s

/-- The interest subtree denoted by a path, if the whole path is present. -/
def itreeAt : ITree → List Step → Option ITree
  | t, [] => some t
  | t, s :: rest =>
      match t.find s with
      | some t' => itreeAt t' rest
      | none => none

/-- `p` is a leaf of the interest tree: present, with no children below. -/
def leafAtB (t : ITree) (p : List Step) : Bool :=
  match itreeAt t p with
  | some t' => t'.entries.isEmpty
  | none => false

/-- The claim's notion of a reachable node: at each object level the step is a
key present in the object, at each array level an in-bounds index. -/
def reachableB : Json → List Step → Bool
  | _, [] => true
  | .obj es, .key k :: rest =>
      match lookupJ es k with
      | some v => reachableB v rest
      | none => false
  | .arr l, .idx i :: rest =>
      match jgetOpt l i with
      | some v => reachableB v rest
      | none => false
  | _, _ => false

/-- The grouping key of `process_dict_children`:
`(num_pipes, num_dashes, separator, child_keys)`. -/
structure GroupId where
  numPipes : Nat
  numDashes : Nat
  sep : Option Char
  childKeys : List String
deriving DecidableEq, Repr

/-- Counts the occurrences of `sep` whose two neighbouring characters exist
and are non-whitespace: the matches of the regex
`(?<=\S)sep(?=\S)` (lookarounds consume nothing, so every position counts). -/
def countInterior (sep : Char) : List Char → Nat
  | a :: b :: c :: rest =>
      (if b = sep && !pyIsSpace a && !pyIsSpace c then 1 else 0) +
        countInterior sep (b :: c :: rest)
  | _ => 0

/-- Lines 89-104: try interior pipes first, then interior dashes; returns
`(num_pipes, num_dashes, separator)`. -/
def sepInfo (k : String) : Nat × Nat × Option Char :=
  let validPipes := countInterior '|' k.data
  if validPipes > 0 then (validPipes, 0, some '|')
  else
    let validDashes := countInterior '-' k.data
    if validDashes > 0 then (0, validDashes, some '-') else (0, 0, none)

/-- `frozenset(node[key].keys())` in canonical form: the sorted duplicate-free
key list (two frozensets are equal iff these canonical lists are equal). -/
def keySetOf (es : List (String × Json)) : List String :=
  (sortByLe strLe (es.map Prod.fst)).dedup

/-- The child entries of `node[key]` when it is an object (only consulted for
grouping candidates, whose value is an object). -/
def childEntriesOf (es : List (String × Json)) (k : String) : List (String × Json) :=
  match lookupJ es k with
  | some (.obj ces) => ces
  | _ => []

/-- The `group_id` computed for a candidate key. -/
def groupIdOf (es : List (String × Json)) (k : String) : GroupId :=
  let si := sepInfo k
  ⟨si.1, si.2.1, si.2.2, keySetOf (childEntriesOf es k)⟩

/-- `is_candidate`: the key's value is an object (keys of a JSON object are
always strings, so `isinstance(key, str)` is always true here). -/
def isCandidate (es : List (String × Json)) (k : String) : Bool :=
  match lookupJ es k with
  | some (.obj _) => true
  | _ => false

/-- `groups[group_id].append(key)` on an insertion-ordered association list
(the model of the Python dict `groups`). -/
def addToGroups (gs : List (GroupId × List String)) (g : GroupId) (k : String) :
    List (GroupId × List String) :=
  match gs with
  | [] => [(g, [k])]
  | (g', ks) :: rest =>
      if g' = g then (g', ks ++ [k]) :: rest else (g', ks) :: addToGroups rest g k

/-- One iteration of the key loop of `process_dict_children` (lines 67-114):
skip keys outside an active interest tree, keep the next target key and
interest keys ungrouped, file candidates into `groups`. -/
def classifyKey (es : List (String × Json)) (nt : Option Step) (it : Option ITree)
    (acc : List String × List (GroupId × List String)) (k : String) :
    List String × List (GroupId × List String) :=
  match it with
  | some t =>
      match t.find (.key k) with
      | none => acc
      | some _ =>
          if nt = some (.key k) then (acc.1 ++ [k], acc.2)
          else (acc.1 ++ [k], acc.2)
  | none =>
      if nt = some (.key k) then (acc.1 ++ [k], acc.2)
      else if isCandidate es k then (acc.1, addToGroups acc.2 (groupIdOf es k) k)
      else (acc.1 ++ [k], acc.2)

/-- The whole key loop: `(non_grouped_keys, groups)`. -/
def pass1 (es : List (String × Json)) (nt : Option Step) (it : Option ITree) :
    List String × List (GroupId × List String) :=
  (es.map Prod.fst).foldl (classifyKey es nt it) ([], [])

/-- Lines 116-122: groups with a single member are dissolved back into the
ungrouped keys; the rest are kept in order. -/
def dissolve : List (GroupId × List String) → List String × List (GroupId × List String)
  | [] => ([], [])
  | (g, ks) :: rest =>
      let r := dissolve rest
      if ks.length > 1 then (r.1, (g, ks) :: r.2) else (ks ++ r.1, r.2)

/-- An entry of `all_items_to_process`. -/
inductive Item where
  | single (key : String)
  | group (keys : List String) (gid : GroupId)
deriving DecidableEq, Repr

/-- The sort key of line 135: the single key, or the first member of a group. -/
def Item.sortKey : Item → String
  | .single k => k
  | .group ks _ => ks.headD ""

/-- `all_items_to_process` before sorting: ungrouped keys first, then the
surviving groups. -/
def preItems (es : List (String × Json)) (nt : Option Step) (it : Option ITree) :
    List Item :=
  let p := pass1 es nt it
  let d := dissolve p.2
  (p.1 ++ d.1).map Item.single ++ d.2.map (fun g => Item.group g.2 g.1)

/-- `all_items_to_process` after the stable sort by string sort key. -/
def buildItems (es : List (String × Json)) (nt : Option Step) (it : Option ITree) :
    List Item :=
  sortByLe (fun a b => strLe a.sortKey b.sortKey) (preItems es nt it)

/-- Label pattern of a group (lines 156-162): `count+1` placeholder fields
joined by the separator, or the bare `<fld1>` without separator. -/
def fieldsFrom (sep : String) : Nat → Nat → String
  | j, 0 => "<fld" ++ toString j ++ ">"
  | j, n + 1 => "<fld" ++ toString j ++ ">" ++ sep ++ fieldsFrom sep (j + 1) n

def labelPattern (gid : GroupId) : String :=
  match gid.sep with
  | some c =>
      let count := if c = '|' then gid.numPipes else gid.numDashes
      fieldsFrom (String.mk [c]) 1 count
  | none => "<fld1>"

/-- Python truthiness of the optional query string. -/
def qTruthy : Option String → Bool
  | none => false
  | some s => !s.isEmpty

/-- Python truthiness of the optional target path. -/
def tpTruthy : Option (List Step) → Bool
  | none => false
  | some l => !l.isEmpty

/-- `str.replace` on character lists: replace every non-overlapping occurrence
of `pat`, scanning left to right. -/
def pyReplaceAux (pat rep : List Char) : List Char → List Char
  | [] => []
  | c :: rest =>
      if decide (pat <+: (c :: rest)) then
        rep ++ pyReplaceAux pat rep (List.drop (pat.length - 1) rest)
      else c :: pyReplaceAux pat rep rest
  termination_by l => l.length
  decreasing_by
    all_goals simp only [List.length_drop, List.length_cons]
    all_goals omega

/-- `highlight_match`: wrap every occurrence of the query in green ANSI
markers; falsy queries are a no-op. -/
def highlightMatch (text : String) (q : Option String) : String :=
  match q with
  | none => text
  | some qs =>
      if qs.isEmpty then text
      else
        ⟨pyReplaceAux qs.data ("\x1b[92m" ++ qs ++ "\x1b[0m").data text.data⟩

/-- The ascending list of integer keys of an interest tree node
(`sorted([i for i in interest_tree.keys() if isinstance(i, int)])`). -/
def intKeysSorted (t : ITree) : List Int :=
  sortByLe (fun a b => decide (a ≤ b))
    (t.entries.filterMap (fun e => match e.1 with | .idx i => some i | _ => none))

/-- Lines 249-270: which indices of an array are visited.  With an active
query and an interest tree, the sorted interest indices; otherwise exactly one
index: the in-bounds target index, else `0`. -/
def indicesToVisit (len : Nat) (curLen : Nat) (tp : Option (List Step))
    (it : Option ITree) (q : Option String) : List Int :=
  if qTruthy q && it.isSome then
    match it with
    | some t => intKeysSorted t
    | none => []
  else
    let nti : Int :=
      match tp with
      | some l =>
          if l.isEmpty then -1
          else
            match l.get? curLen with
            | some (.idx i) => i
            | _ => -1
      | none => -1
    if nti ≠ -1 then
      if 0 ≤ nti ∧ nti < (len : Int) then [nti] else [0]
    else [0]

theorem list_sizeOf_pos {α : Type _} [SizeOf α] (l : List α) : 1 ≤ sizeOf l := by
  cases l with
  | nil => simp
  | cons a l => simp; omega

theorem sizeOf_lookupJ_lt (es : List (String × Json)) (k : String) (v : Json)
    (h : lookupJ es k = some v) : sizeOf v < sizeOf es := by
  induction es with
  | nil => simp [lookupJ] at h
  | cons e rest ih =>
      obtain ⟨k', v'⟩ := e
      simp only [lookupJ] at h
      by_cases hk : k' = k
      · simp [hk] at h
        subst h
        simp
        omega
      · simp [hk] at h
        have := ih h
        simp
        omega

theorem sizeOf_jlookup_le (es : List (String × Json)) (k : String) :
    sizeOf (jlookup es k) ≤ sizeOf es := by
  unfold jlookup
  cases h : lookupJ es k with
  | none => simpa using list_sizeOf_pos es
  | some v =>
      simp only [Option.getD_some]
      exact Nat.le_of_lt (sizeOf_lookupJ_lt es k v h)

theorem sizeOf_jget_le (l : List Json) (i : Int) : sizeOf (jget l i) ≤ sizeOf l := by
  unfold jget jgetOpt
  by_cases h : 0 ≤ i ∧ i.toNat < l.length
  · simp only [h, dite_true, Option.getD_some]
    exact Nat.le_of_lt (List.sizeOf_lt_of_mem (l.get_mem _ _))
  · simp only [h, dite_false, Option.getD_none]
    simpa using list_sizeOf_pos l

/-- The output of a rendering run: printed lines, the paths of the nodes
`print_tree` was entered on, the `(path, line)` pairs where the ` <--- TARGET`
marker was appended, and the member-key lists of the emitted group lines. -/
structure ROut where
  lines : List String
  visited : List (List Step)
  marked : List (List Step × String)
  groupKeys : List (List String)
deriving DecidableEq, Repr

def ROut.empty : ROut := ⟨[], [], [], []⟩

def ROut.app (a b : ROut) : ROut :=
  ⟨a.lines ++ b.lines, a.visited ++ b.visited, a.marked ++ b.marked,
   a.groupKeys ++ b.groupKeys⟩

/-- Lines 62-65: the next step of the target path at this depth, if any. -/
def nextTargetOf (tp : Option (List Step)) (curLen : Nat) : Option Step :=
  match tp with
  | some l => if l.isEmpty then none else l.get? curLen
  | none => none

/-- Lines 195-232: the line printed for the current node, and whether the
` <--- TARGET` marker was appended to it. -/
def selfLine (node : Json) (currentPath : List Step) (depth : Nat)
    (tp : Option (List Step)) (isLast : Bool) (pre : String) (q : Option String) :
    String × Bool :=
  let baseLabel :=
    if depth = 0 then "[root]"
    else
      match currentPath.getLast? with
      | some (.idx i) => "[" ++ toString i ++ "]"
      | some (.key k) => k
      | none => ""
  let isTarget := tpTruthy tp && decide (tp = some currentPath)
  let label1 := if isTarget then baseLabel ++ " <--- TARGET" else baseLabel
  let label2 :=
    match q, node with
    | some qs, .str s =>
        if !qs.isEmpty && strContains s qs then
          label1 ++ ": " ++ highlightMatch s (some qs)
        else label1
    | _, _ => label1
  let connector := if depth > 0 then (if isLast then "+--- " else "+--- ") else ""
  (pre ++ connector ++ label2, isTarget)

/-- Lines 234-239: the prefix handed to the children. -/
def childPrefixOf (depth : Nat) (pre : String) (isLast : Bool) : String :=
  if depth > 0 then pre ++ (if isLast then "    " else "|   ") else "     "

mutual
/-- `print_tree`: emit the node's own line, then recurse into the children as
dictated by grouping, the target path and the interest tree. -/
def printTree (node : Json) (currentPath : List Step) (depth : Nat)
    (tp : Option (List Step)) (isLast : Bool) (pre : String)
    (it : Option ITree) (q : Option String) : ROut :=
  let sl := selfLine node currentPath depth tp isLast pre q
  let childPre := childPrefixOf depth pre isLast
  let selfOut : ROut :=
    ⟨[sl.1], [currentPath], if sl.2 then [(currentPath, sl.1)] else [], []⟩
  match node with
  | .obj es => selfOut.app (processDictChildren es currentPath depth tp childPre it q)
  | .arr items =>
      if items.isEmpty then selfOut
      else
        selfOut.app
          (processIdxChildren items
            (indicesToVisit items.length currentPath.length tp it q)
            currentPath depth tp childPre it q)
  | _ => selfOut
  termination_by (4 * sizeOf node, 0)
  decreasing_by
    all_goals simp_wf
    all_goals exact Prod.Lex.left _ _ (by omega)

/-- Lines 272-278: the loop over `indices_to_visit`. -/
def processIdxChildren (items : List Json) (ixs : List Int) (currentPath : List Step)
    (depth : Nat) (tp : Option (List Step)) (childPre : String)
    (it : Option ITree) (q : Option String) : ROut :=
  match ixs with
  | [] => ROut.empty
  | i :: rest =>
      let isLastChild := rest.isEmpty
      let childIt := match it with | some t => t.find (.idx i) | none => none
      (printTree (jget items i) (currentPath ++ [.idx i]) (depth + 1) tp isLastChild
          childPre childIt q).app
        (processIdxChildren items rest currentPath depth tp childPre it q)
  termination_by (4 * sizeOf items + 2, ixs.length)
  decreasing_by
    all_goals simp_wf
    · have h := sizeOf_jget_le items i
      exact Prod.Lex.left _ _ (by omega)
    · exact Prod.Lex.right _ (by omega)

/-- `process_dict_children`: group the keys of this level, then process the
resulting items in sorted order. -/
def processDictChildren (es : List (String × Json)) (currentPath : List Step)
    (depth : Nat) (tp : Option (List Step)) (pre : String)
    (it : Option ITree) (q : Option String) : ROut :=
  processItems es (buildItems es (nextTargetOf tp currentPath.length) it)
    currentPath depth tp pre it q
  termination_by (4 * sizeOf es + 3, 0)
  decreasing_by
    all_goals exact Prod.Lex.left _ _ (by omega)

/-- Lines 137-189: the loop over `all_items_to_process`. -/
def processItems (es : List (String × Json)) (items : List Item)
    (currentPath : List Step) (depth : Nat) (tp : Option (List Step)) (pre : String)
    (it : Option ITree) (q : Option String) : ROut :=
  match items with
  | [] => ROut.empty
  | item :: rest =>
      let isLastChild := rest.isEmpty
      let headOut : ROut :=
        match item with
        | .single k =>
            let childIt := match it with | some t => t.find (.key k) | none => none
            printTree (jlookup es k) (currentPath ++ [.key k]) (depth + 1) tp
              isLastChild pre childIt q
        | .group ks gid =>
            let firstKey := ks.headD ""
            let groupLabel := "\"" ++ labelPattern gid ++ "\" (ex.: \"" ++ firstKey ++ "\")"
            let connector := if isLastChild then "+--- " else "+--- "
            let gline := pre ++ connector ++ groupLabel
            let gpre := pre ++ (if isLastChild then "    " else "|   ")
            let repOut : ROut :=
              match hrep : jlookup es firstKey with
              | .obj res =>
                  processDictChildren res (currentPath ++ [.key firstKey]) (depth + 1)
                    tp gpre none q
              | .arr _ => ROut.empty
              | _ => ROut.empty
            ROut.app ⟨[gline], [], [], [ks]⟩ repOut
      headOut.app (processItems es rest currentPath depth tp pre it q)
  termination_by (4 * sizeOf es + 2, items.length)
  decreasing_by
    all_goals simp_wf
    · have h := sizeOf_jlookup_le es k
      exact Prod.Lex.left _ _ (by omega)
    · have h := sizeOf_jlookup_le es firstKey
      rw [hrep] at h
      simp at h
      exact Prod.Lex.left _ _ (by omega)
    · exact Prod.Lex.right _ (by omega)
end

/-! ### Order and sorting lemmas -/

theorem lexLt_irrefl (a : List Char) : lexLt a a = false := by
  induction a with
  | nil => rfl
  | cons c cs ih => simp [lexLt, ih]

theorem lexLt_trans :
    ∀ (a b c : List Char), lexLt a b = true → lexLt b c = true → lexLt a c = true
  | [], [], _, h₁, _ => by simp [lexLt] at h₁
  | [], _ :: _, [], _, h₂ => by simp [lexLt] at h₂
  | [], _ :: _, _ :: _, _, _ => by simp [lexLt]
  | _ :: _, [], _, h₁, _ => by simp [lexLt] at h₁
  | _ :: _, _ :: _, [], _, h₂ => by simp [lexLt] at h₂
  | x :: xs, y :: ys, z :: zs, h₁, h₂ => by
      simp only [lexLt] at h₁ h₂ ⊢
      rcases lt_trichotomy x y with hxy | hxy | hxy
      · rcases lt_trichotomy y z with hyz | hyz | hyz
        · simp [lt_trans hxy hyz]
        · subst hyz
          simp [hxy]
        · rw [if_neg (lt_asymm hyz), if_pos hyz] at h₂
          exact absurd h₂ (by simp)
      · subst hxy
        rw [if_neg (lt_irrefl x), if_neg (lt_irrefl x)] at h₁
        rcases lt_trichotomy x z with hxz | hxz | hxz
        · simp [hxz]
        · subst hxz
          rw [if_neg (lt_irrefl x), if_neg (lt_irrefl x)] at h₂ ⊢
          exact lexLt_trans xs ys zs h₁ h₂
        · rw [if_neg (lt_asymm hxz), if_pos hxz] at h₂
          exact absurd h₂ (by simp)
      · rw [if_neg (lt_asymm hxy), if_pos hxy] at h₁
        exact absurd h₁ (by simp)

theorem lexLt_eq_of_not :
    ∀ (a b : List Char), lexLt a b = false → lexLt b a = false → a = b
  | [], [], _, _ => rfl
  | [], _ :: _, h₁, _ => by simp [lexLt] at h₁
  | _ :: _, [], _, h₂ => by simp [lexLt] at h₂
  | x :: xs, y :: ys, h₁, h₂ => by
      simp only [lexLt] at h₁ h₂
      rcases lt_trichotomy x y with hxy | hxy | hxy
      · rw [if_pos hxy] at h₁
        exact absurd h₁ (by simp)
      · subst hxy
        rw [if_neg (lt_irrefl x), if_neg (lt_irrefl x)] at h₁ h₂
        rw [lexLt_eq_of_not xs ys h₁ h₂]
      · rw [if_pos hxy] at h₂
        exact absurd h₂ (by simp)

theorem strLe_trans {a b c : String} (h₁ : strLe a b = true) (h₂ : strLe b c = true) :
    strLe a c = true := by
  simp only [strLe, Bool.not_eq_true'] at h₁ h₂ ⊢
  by_cases hca : lexLt c.data a.data = true
  · by_cases hbclt : lexLt b.data c.data = true
    · have := lexLt_trans _ _ _ hbclt hca
      rw [this] at h₁
      exact absurd h₁ (by simp)
    · have hbc' : lexLt b.data c.data = false := by simpa using hbclt
      have : b.data = c.data := lexLt_eq_of_not _ _ hbc' h₂
      rw [← this] at hca
      rw [hca] at h₁
      exact absurd h₁ (by simp)
  · simpa using hca

theorem strLe_total (a b : String) : strLe a b = true ∨ strLe b a = true := by
  simp only [strLe, Bool.not_eq_true']
  by_cases h : lexLt b.data a.data = true
  · right
    by_cases h' : lexLt a.data b.data = true
    · have := lexLt_trans _ _ _ h h'
      rw [lexLt_irrefl] at this
      exact absurd this (by simp)
    · simpa using h'
  · left
    simpa using h

theorem insertS_perm (le : α → α → Bool) (a : α) (l : List α) :
    (insertS le a l).Perm (a :: l) := by
  induction l with
  | nil => simp [insertS]
  | cons b bs ih =>
      simp only [insertS]
      by_cases h : le a b = true
      · simp [h]
      · simp only [h, Bool.false_eq_true, if_false]
        exact (ih.cons b).trans (List.Perm.swap a b bs)

theorem sortByLe_perm (le : α → α → Bool) (l : List α) : (sortByLe le l).Perm l := by
  induction l with
  | nil => simp [sortByLe]
  | cons a rest ih =>
      exact (insertS_perm le a (sortByLe le rest)).trans (ih.cons a)

theorem mem_insertS (le : α → α → Bool) (a x : α) (l : List α) :
    x ∈ insertS le a l ↔ x = a ∨ x ∈ l := by
  rw [(insertS_perm le a l).mem_iff]
  simp

theorem mem_sortByLe (le : α → α → Bool) (x : α) (l : List α) :
    x ∈ sortByLe le l ↔ x ∈ l := (sortByLe_perm le l).mem_iff

theorem pairwise_insertS (le : α → α → Bool)
    (htrans : ∀ a b c, le a b = true → le b c = true → le a c = true)
    (htot : ∀ a b, le a b = true ∨ le b a = true) (a : α) (l : List α)
    (h : l.Pairwise (fun x y => le x y = true)) :
    (insertS le a l).Pairwise (fun x y => le x y = true) := by
  induction l with
  | nil => simp [insertS]
  | cons b bs ih =>
      simp only [insertS]
      rcases List.pairwise_cons.mp h with ⟨hb, hbs⟩
      by_cases hab : le a b = true
      · simp only [hab, if_true]
        refine List.pairwise_cons.mpr ⟨?_, h⟩
        intro x hx
        rcases List.mem_cons.mp hx with hx | hx
        · rw [hx]
          exact hab
        · exact htrans a b x hab (hb x hx)
      · simp only [hab, Bool.false_eq_true, if_false]
        refine List.pairwise_cons.mpr ⟨?_, ih hbs⟩
        intro x hx
        rcases (mem_insertS le a x bs).mp hx with hx | hx
        · rcases htot a b with h' | h'
          · exact absurd h' hab
          · rw [hx]
            exact h'
        · exact hb x hx

theorem pairwise_sortByLe (le : α → α → Bool)
    (htrans : ∀ a b c, le a b = true → le b c = true → le a c = true)
    (htot : ∀ a b, le a b = true ∨ le b a = true) (l : List α) :
    (sortByLe le l).Pairwise (fun x y => le x y = true) := by
  induction l with
  | nil => simp [sortByLe]
  | cons a rest ih => exact pairwise_insertS le htrans htot a (sortByLe le rest) ih

/-! ### Well-formedness and lookup lemmas -/

theorem wfEntriesB_iff (es : List (String × Json)) :
    wfEntriesB es = true ↔ ∀ kv ∈ es, wfB kv.2 = true := by
  induction es with
  | nil => simp [wfEntriesB]
  | cons kv rest ih =>
      obtain ⟨k, v⟩ := kv
      simp [wfEntriesB, ih]

theorem wfItemsB_iff (l : List Json) :
    wfItemsB l = true ↔ ∀ v ∈ l, wfB v = true := by
  induction l with
  | nil => simp [wfItemsB]
  | cons v rest ih => simp [wfItemsB, ih]

theorem wfB_obj (es : List (String × Json)) :
    wfB (.obj es) = true ↔ (es.map Prod.fst).Nodup ∧ ∀ kv ∈ es, wfB kv.2 = true := by
  simp [wfB, wfEntriesB_iff]

theorem wfB_arr (l : List Json) :
    wfB (.arr l) = true ↔ ∀ v ∈ l, wfB v = true := by
  simp [wfB, wfItemsB_iff]

theorem lookupJ_mem {es : List (String × Json)} {k : String} {v : Json}
    (h : lookupJ es k = some v) : (k, v) ∈ es := by
  induction es with
  | nil => simp [lookupJ] at h
  | cons kv rest ih =>
      obtain ⟨k', v'⟩ := kv
      simp only [lookupJ] at h
      by_cases hk : k' = k
      · subst hk
        simp at h
        subst h
        exact List.mem_cons_self _ _
      · simp [hk] at h
        exact List.mem_cons_of_mem _ (ih h)

theorem lookupJ_eq_of_mem {es : List (String × Json)} {k : String} {v : Json}
    (hnd : (es.map Prod.fst).Nodup) (hm : (k, v) ∈ es) : lookupJ es k = some v := by
  induction es with
  | nil => simp at hm
  | cons kv rest ih =>
      obtain ⟨k', v'⟩ := kv
      simp only [List.map_cons, List.nodup_cons] at hnd
      rcases List.mem_cons.mp hm with hm | hm
      · rw [Prod.mk.injEq] at hm
        obtain ⟨hk, hv⟩ := hm
        subst hk
        subst hv
        simp [lookupJ]
      · by_cases hk : k' = k
        · subst hk
          exact absurd (List.mem_map_of_mem Prod.fst hm) hnd.1
        · simp only [lookupJ, hk, if_false]
          exact ih hnd.2 hm

theorem lookupJ_none_iff (es : List (String × Json)) (k : String) :
    lookupJ es k = none ↔ k ∉ es.map Prod.fst := by
  induction es with
  | nil => simp [lookupJ]
  | cons kv rest ih =>
      obtain ⟨k', v'⟩ := kv
      simp only [lookupJ, List.map_cons, List.mem_cons]
      by_cases hk : k' = k
      · simp [hk]
      · simp [hk, ih, Ne.symm hk]

theorem wfB_jlookup (es : List (String × Json)) (k : String)
    (h : wfB (.obj es) = true) : wfB (jlookup es k) = true := by
  unfold jlookup
  cases hl : lookupJ es k with
  | none => simp [wfB]
  | some v =>
      simp only [Option.getD_some]
      exact ((wfB_obj es).mp h).2 _ (lookupJ_mem hl)

theorem wfB_jget (l : List Json) (i : Int)
    (h : wfB (.arr l) = true) : wfB (jget l i) = true := by
  unfold jget jgetOpt
  by_cases hb : 0 ≤ i ∧ i.toNat < l.length
  · simp only [hb, dite_true, Option.getD_some]
    exact (wfB_arr l).mp h _ (l.get_mem _ _)
  · simp [hb, wfB]

/-- Structural induction over `Json` through the nested lists. -/
theorem Json.inductOn {P : Json → Prop} (hnull : P .null) (hbool : ∀ b, P (.bool b))
    (hnum : ∀ n, P (.num n)) (hstr : ∀ s, P (.str s))
    (hobj : ∀ es, (∀ kv, kv ∈ es → P kv.2) → P (.obj es))
    (harr : ∀ items, (∀ v, v ∈ items → P v) → P (.arr items)) : ∀ v, P v
  | .null => hnull
  | .bool b => hbool b
  | .num n => hnum n
  | .str s => hstr s
  | .obj es => hobj es (fun kv hkv =>
      Json.inductOn hnull hbool hnum hstr hobj harr kv.2)
  | .arr items => harr items (fun v hv =>
      Json.inductOn hnull hbool hnum hstr hobj harr v)
termination_by v => sizeOf v
decreasing_by
  · obtain ⟨a, b⟩ := kv
    have := List.sizeOf_lt_of_mem hkv
    simp at this ⊢
    omega
  · have := List.sizeOf_lt_of_mem hv
    simp
    omega

/-! ### Interest analyzer lemmas -/

theorem interestChildrenObj_eq (es : List (String × Json)) (q : String) :
    interestChildrenObj es q =
      es.map (fun kv => (Step.key kv.1, buildInterestTree kv.2 q)) := by
  induction es with
  | nil => simp [interestChildrenObj]
  | cons kv rest ih =>
      obtain ⟨k, v⟩ := kv
      simp [interestChildrenObj, ih]

theorem interestChildrenArr_eq (items : List Json) (q : String) :
    ∀ n, interestChildrenArr items n q =
      (List.enumFrom n items).map
        (fun jv => (Step.idx (Int.ofNat jv.1), buildInterestTree jv.2 q)) := by
  induction items with
  | nil => intro n; simp [interestChildrenArr]
  | cons v rest ih =>
      intro n
      simp [interestChildrenArr, List.enumFrom_cons, ih]

theorem any_map_comp (f : α → β) (p : β → Bool) (l : List α) :
    (l.map f).any p = l.any (fun a => p (f a)) := by
  induction l with
  | nil => rfl
  | cons a rest ih => simp [ih]

theorem filterMap_map_comp (f : α → β) (g : β → Option γ) (l : List α) :
    List.filterMap g (l.map f) = l.filterMap (fun a => g (f a)) := by
  induction l with
  | nil => rfl
  | cons a rest ih =>
      simp only [List.map_cons, List.filterMap_cons, ih]

theorem buildInterestTree_obj (es : List (String × Json)) (q : String) :
    buildInterestTree (.obj es) q =
      (es.any (fun kv => (buildInterestTree kv.2 q).1),
       .mk (es.filterMap (fun kv =>
         if (buildInterestTree kv.2 q).1 then
           some (Step.key kv.1, (buildInterestTree kv.2 q).2)
         else none))) := by
  rw [buildInterestTree, interestChildrenObj_eq]
  rw [any_map_comp, filterMap_map_comp]

theorem buildInterestTree_arr (items : List Json) (q : String) :
    buildInterestTree (.arr items) q =
      (items.any (fun v => (buildInterestTree v q).1),
       .mk ((List.enumFrom 0 items).filterMap (fun jv =>
          if (buildInterestTree jv.2 q).1 then
            some (Step.idx (Int.ofNat jv.1), (buildInterestTree jv.2 q).2)
          else none))) := by
  rw [buildInterestTree, interestChildrenArr_eq]
  rw [any_map_comp, filterMap_map_comp]
  congr 1
  have : (List.enumFrom 0 items).map Prod.snd = items := List.enumFrom_map_snd 0 items
  conv_rhs => rw [← this]
  rw [any_map_comp]

theorem lookupIT_keys_none (l : List (Step × ITree)) (s : Step)
    (h : ∀ e ∈ l, e.1 ≠ s) : lookupIT l s = none := by
  induction l with
  | nil => rfl
  | cons e rest ih =>
      obtain ⟨s', t⟩ := e
      have hs : s' ≠ s := h (s', t) (List.mem_cons_self _ _)
      simp only [lookupIT, hs, if_false]
      exact ih (fun e he => h e (List.mem_cons_of_mem _ he))

theorem lookupIT_obj_build (q : String) (k : String) :
    ∀ (es : List (String × Json)), (es.map Prod.fst).Nodup →
    lookupIT (es.filterMap (fun kv =>
        if (buildInterestTree kv.2 q).1 then
          some (Step.key kv.1, (buildInterestTree kv.2 q).2)
        else none)) (Step.key k) =
      match lookupJ es k with
      | some v =>
          if (buildInterestTree v q).1 then some (buildInterestTree v q).2 else none
      | none => none := by
  intro es
  induction es with
  | nil => intro _; simp [lookupIT, lookupJ]
  | cons kv rest ih =>
      intro hnd
      obtain ⟨k₀, v₀⟩ := kv
      simp only [List.map_cons, List.nodup_cons] at hnd
      simp only [List.filterMap_cons]
      by_cases hk : k₀ = k
      · subst hk
        by_cases hm : (buildInterestTree v₀ q).1 = true
        · simp [hm, lookupIT, lookupJ]
        · have hnone : lookupIT (rest.filterMap (fun kv =>
              if (buildInterestTree kv.2 q).1 then
                some (Step.key kv.1, (buildInterestTree kv.2 q).2)
              else none)) (Step.key k₀) = none := by
            apply lookupIT_keys_none
            intro e he
            obtain ⟨kv', hkv', hpick⟩ := List.mem_filterMap.mp he
            by_cases hm' : (buildInterestTree kv'.2 q).1 = true
            · simp only [hm', if_true, Option.some.injEq] at hpick
              have h1 : e.1 = Step.key kv'.1 := by rw [← hpick]
              rw [h1]
              intro hcontra
              rw [Step.key.injEq] at hcontra
              apply hnd.1
              rw [← hcontra]
              exact List.mem_map_of_mem Prod.fst hkv'
            · simp [hm'] at hpick
          simp only [Bool.not_eq_true] at hm
          simp [hm, hnone, lookupJ]
      · by_cases hm : (buildInterestTree v₀ q).1 = true
        · have hne : Step.key k₀ ≠ Step.key k := by
            intro hcontra
            injection hcontra with h2
            exact hk h2
          simp only [hm, if_true, lookupIT, hne, if_false]
          rw [ih hnd.2]
          simp [lookupJ, hk]
        · simp only [Bool.not_eq_true] at hm
          simp only [hm, Bool.false_eq_true, if_false]
          rw [ih hnd.2]
          simp [lookupJ, hk]

theorem lookupIT_arr_build (q : String) :
    ∀ (items : List Json) (n : Nat) (i : Int),
    lookupIT ((List.enumFrom n items).filterMap (fun jv =>
        if (buildInterestTree jv.2 q).1 then
          some (Step.idx (Int.ofNat jv.1), (buildInterestTree jv.2 q).2)
        else none)) (Step.idx i) =
      match (if (n : Int) ≤ i then items.get? (i - n).toNat else none) with
      | some v =>
          if (buildInterestTree v q).1 then some (buildInterestTree v q).2 else none
      | none => none := by
  intro items
  induction items with
  | nil =>
      intro n i
      by_cases h : (n : Int) ≤ i <;> simp [lookupIT, h]
  | cons v rest ih =>
      intro n i
      rw [List.enumFrom_cons, List.filterMap_cons]
      by_cases hi : Int.ofNat n = i
      · have hi' : (n : Int) = i := by exact_mod_cast hi
        have hle : (n : Int) ≤ i := by omega
        have htn : (i - (n : Int)).toNat = 0 := by omega
        by_cases hm : (buildInterestTree v q).1 = true
        · simp only [hm, if_true]
          rw [hi]
          simp only [lookupIT, if_pos rfl]
          rw [if_pos hle, htn]
          simp [hm]
        · simp only [Bool.not_eq_true] at hm
          simp only [hm, Bool.false_eq_true, if_false]
          rw [ih (n + 1) i]
          rw [if_pos hle, htn]
          simp only [List.get?_cons_zero]
          have hne1 : ¬ (((n + 1 : Nat) : Int) ≤ i) := by push_cast; omega
          rw [if_neg hne1]
          simp [hm]
      · have hi' : ¬ ((n : Int) = i) := by
          intro h
          apply hi
          exact_mod_cast h
        have hkey : Step.idx (Int.ofNat n) ≠ Step.idx i := by
          intro hc
          rw [Step.idx.injEq] at hc
          exact hi hc
        have hmain : lookupIT ((List.enumFrom (n + 1) rest).filterMap (fun jv =>
            if (buildInterestTree jv.2 q).1 then
              some (Step.idx (Int.ofNat jv.1), (buildInterestTree jv.2 q).2)
            else none)) (Step.idx i) =
            match (if (n : Int) ≤ i then (v :: rest).get? (i - n).toNat else none) with
            | some w =>
                if (buildInterestTree w q).1 then some (buildInterestTree w q).2 else none
            | none => none := by
          rw [ih (n + 1) i]
          by_cases hle1 : (((n + 1 : Nat) : Int) ≤ i)
          · have hle : (n : Int) ≤ i := by push_cast at hle1 ⊢; omega
            have harith : (i - (n : Int)).toNat = (i - ((n + 1 : Nat) : Int)).toNat + 1 := by
              push_cast at hle1 ⊢
              omega
            rw [if_pos hle1, if_pos hle, harith, List.get?_cons_succ]
          · have hle : ¬ ((n : Int) ≤ i) := by
              push_cast at hle1 ⊢
              omega
            rw [if_neg hle1, if_neg hle]
        by_cases hm : (buildInterestTree v q).1 = true
        · simp only [hm, if_true, lookupIT, if_neg hkey]
          exact hmain
        · simp only [Bool.not_eq_true] at hm
          simp only [hm, Bool.false_eq_true, if_false]
          exact hmain

theorem jgetOpt_eq (l : List Json) (i : Int) :
    jgetOpt l i = if (0 : Int) ≤ i then l.get? i.toNat else none := by
  unfold jgetOpt
  by_cases h0 : (0 : Int) ≤ i
  · by_cases hlen : i.toNat < l.length
    · rw [dif_pos ⟨h0, hlen⟩, if_pos h0, List.get?_eq_get hlen]
    · have : ¬ (0 ≤ i ∧ i.toNat < l.length) := by tauto
      rw [dif_neg this, if_pos h0, List.get?_eq_none.mpr (Nat.le_of_not_lt hlen)]
  · have : ¬ (0 ≤ i ∧ i.toNat < l.length) := by tauto
    rw [dif_neg this, if_neg h0]

theorem lookupIT_obj_build_idx (es : List (String × Json)) (q : String) (i : Int) :
    lookupIT (es.filterMap (fun kv =>
        if (buildInterestTree kv.2 q).1 then
          some (Step.key kv.1, (buildInterestTree kv.2 q).2)
        else none)) (Step.idx i) = none := by
  apply lookupIT_keys_none
  intro e he
  obtain ⟨kv', hkv', hpick⟩ := List.mem_filterMap.mp he
  by_cases hm' : (buildInterestTree kv'.2 q).1 = true
  · simp only [hm', if_true, Option.some.injEq] at hpick
    have h1 : e.1 = Step.key kv'.1 := by rw [← hpick]
    rw [h1]
    simp
  · simp [hm'] at hpick

theorem lookupIT_arr_build_key (items : List Json) (q : String) (n : Nat) (k : String) :
    lookupIT ((List.enumFrom n items).filterMap (fun jv =>
        if (buildInterestTree jv.2 q).1 then
          some (Step.idx (Int.ofNat jv.1), (buildInterestTree jv.2 q).2)
        else none)) (Step.key k) = none := by
  apply lookupIT_keys_none
  intro e he
  obtain ⟨jv', hjv', hpick⟩ := List.mem_filterMap.mp he
  by_cases hm' : (buildInterestTree jv'.2 q).1 = true
  · simp only [hm', if_true, Option.some.injEq] at hpick
    have h1 : e.1 = Step.idx (Int.ofNat jv'.1) := by rw [← hpick]
    rw [h1]
    simp
  · simp [hm'] at hpick

/-- `interest_tree.get(key)` on the tree built for an object. -/
theorem find_build_obj (es : List (String × Json)) (q : String) (k : String)
    (hnd : (es.map Prod.fst).Nodup) :
    ((buildInterestTree (.obj es) q).2).find (Step.key k) =
      match lookupJ es k with
      | some v =>
          if (buildInterestTree v q).1 then some (buildInterestTree v q).2 else none
      | none => none := by
  rw [buildInterestTree_obj]
  exact lookupIT_obj_build q k es hnd

/-- `interest_tree.get(index)` on the tree built for an array. -/
theorem find_build_arr (items : List Json) (q : String) (i : Int) :
    ((buildInterestTree (.arr items) q).2).find (Step.idx i) =
      match jgetOpt items i with
      | some v =>
          if (buildInterestTree v q).1 then some (buildInterestTree v q).2 else none
      | none => none := by
  rw [buildInterestTree_arr]
  show lookupIT ((List.enumFrom 0 items).filterMap (fun jv =>
      if (buildInterestTree jv.2 q).1 then
        some (Step.idx (Int.ofNat jv.1), (buildInterestTree jv.2 q).2)
      else none)) (Step.idx i) = _
  rw [lookupIT_arr_build q items 0 i]
  simp [jgetOpt_eq]

theorem find_build_obj_idx (es : List (String × Json)) (q : String) (i : Int) :
    ((buildInterestTree (.obj es) q).2).find (Step.idx i) = none := by
  rw [buildInterestTree_obj]
  exact lookupIT_obj_build_idx es q i

theorem find_build_arr_key (items : List Json) (q : String) (k : String) :
    ((buildInterestTree (.arr items) q).2).find (Step.key k) = none := by
  rw [buildInterestTree_arr]
  exact lookupIT_arr_build_key items q 0 k

theorem matchPathB_obj_cons (es : List (String × Json)) (q : String) (k : String)
    (p : List Step) :
    matchPathB (.obj es) q (.key k :: p) =
      match lookupJ es k with
      | some v => matchPathB v q p
      | none => false := by
  cases hl : lookupJ es k <;> simp [matchPathB, getPath, hl]

theorem matchPathB_arr_cons (items : List Json) (q : String) (i : Int) (p : List Step) :
    matchPathB (.arr items) q (.idx i :: p) =
      match jgetOpt items i with
      | some v => matchPathB v q p
      | none => false := by
  cases hl : jgetOpt items i <;> simp [matchPathB, getPath, hl]

theorem leafAtB_cons_some {t t' : ITree} {s : Step} (rest : List Step)
    (h : t.find s = some t') : leafAtB t (s :: rest) = leafAtB t' rest := by
  simp [leafAtB, itreeAt, h]

theorem leafAtB_cons_none {t : ITree} {s : Step} (rest : List Step)
    (h : t.find s = none) : leafAtB t (s :: rest) = false := by
  simp [leafAtB, itreeAt, h]

/-- The main invariant of `build_interest_tree`: the matched flag is set iff
some path hits a matching string, and (when something matched) the leaves of
the returned tree are exactly the paths of the matching strings. -/
theorem buildInterest_spec (q : String) :
    ∀ v, wfB v = true →
      (((buildInterestTree v q).1 = true) ↔ ∃ p, matchPathB v q p = true) ∧
      ((buildInterestTree v q).1 = true →
        ∀ p, (leafAtB (buildInterestTree v q).2 p = true ↔ matchPathB v q p = true)) := by
  intro v
  induction v using Json.inductOn with
  | hnull =>
      intro _
      constructor
      · simp only [buildInterestTree]
        constructor
        · intro h
          exact absurd h (by simp)
        · rintro ⟨p, hp⟩
          cases p <;> simp [matchPathB, getPath] at hp
      · intro h
        exact absurd h (by simp [buildInterestTree])
  | hbool b =>
      intro _
      constructor
      · simp only [buildInterestTree]
        constructor
        · intro h
          exact absurd h (by simp)
        · rintro ⟨p, hp⟩
          cases p <;> simp [matchPathB, getPath] at hp
      · intro h
        exact absurd h (by simp [buildInterestTree])
  | hnum n =>
      intro _
      constructor
      · simp only [buildInterestTree]
        constructor
        · intro h
          exact absurd h (by simp)
        · rintro ⟨p, hp⟩
          cases p <;> simp [matchPathB, getPath] at hp
      · intro h
        exact absurd h (by simp [buildInterestTree])
  | hstr s =>
      intro _
      constructor
      · constructor
        · intro h
          refine ⟨[], ?_⟩
          simpa [buildInterestTree, matchPathB, getPath] using h
        · rintro ⟨p, hp⟩
          cases p with
          | nil => simpa [buildInterestTree, matchPathB, getPath] using hp
          | cons s' rest =>
              cases s' <;> simp [matchPathB, getPath] at hp
      · intro hm p
        cases p with
        | nil =>
            simp only [buildInterestTree] at hm ⊢
            simp [leafAtB, itreeAt, ITree.entries, matchPathB, getPath, hm]
        | cons s' rest =>
            have hfind : (buildInterestTree (.str s) q).2.find s' = none := by
              simp [buildInterestTree, ITree.find, ITree.entries, lookupIT]
            rw [leafAtB_cons_none rest hfind]
            cases s' <;> simp [matchPathB, getPath]
  | hobj es ihc =>
      intro hwf
      obtain ⟨hnd, hwfc⟩ := (wfB_obj es).mp hwf
      have hfst : (buildInterestTree (.obj es) q).1
          = es.any (fun kv => (buildInterestTree kv.2 q).1) := by
        rw [buildInterestTree_obj]
      constructor
      · rw [hfst]
        constructor
        · intro h
          obtain ⟨kv, hkv, hm⟩ := List.any_eq_true.mp h
          obtain ⟨p', hp'⟩ := ((ihc kv hkv (hwfc kv hkv)).1).mp hm
          refine ⟨.key kv.1 :: p', ?_⟩
          rw [matchPathB_obj_cons]
          rw [lookupJ_eq_of_mem hnd (by exact hkv)]
          exact hp'
        · rintro ⟨p, hp⟩
          cases p with
          | nil => simp [matchPathB, getPath] at hp
          | cons s rest =>
              cases s with
              | key k =>
                  rw [matchPathB_obj_cons] at hp
                  cases hl : lookupJ es k with
                  | none => rw [hl] at hp; simp at hp
                  | some v =>
                      rw [hl] at hp
                      have hmem := lookupJ_mem hl
                      have := ((ihc (k, v) hmem (hwfc (k, v) hmem)).1).mpr ⟨rest, hp⟩
                      exact List.any_eq_true.mpr ⟨(k, v), hmem, this⟩
              | idx i => simp [matchPathB, getPath] at hp
      · intro hm p
        cases p with
        | nil =>
            rw [hfst] at hm
            obtain ⟨kv, hkv, hmkv⟩ := List.any_eq_true.mp hm
            have hne : (buildInterestTree (.obj es) q).2.entries ≠ [] := by
              rw [buildInterestTree_obj]
              simp only [ITree.entries]
              intro hc
              rw [List.filterMap_eq_nil] at hc
              have := hc kv hkv
              simp [hmkv] at this
            simp only [leafAtB, itreeAt]
            simp [List.isEmpty_iff, hne, matchPathB, getPath]
        | cons s rest =>
            cases s with
            | key k =>
                rw [matchPathB_obj_cons]
                cases hl : lookupJ es k with
                | none =>
                    have hfind : (buildInterestTree (.obj es) q).2.find (.key k) = none := by
                      rw [find_build_obj es q k hnd, hl]
                    rw [leafAtB_cons_none rest hfind]
                | some v =>
                    have hmem := lookupJ_mem hl
                    by_cases hmv : (buildInterestTree v q).1 = true
                    · have hfind : (buildInterestTree (.obj es) q).2.find (.key k)
                          = some (buildInterestTree v q).2 := by
                        rw [find_build_obj es q k hnd, hl]
                        simp [hmv]
                      rw [leafAtB_cons_some rest hfind]
                      exact (ihc (k, v) hmem (hwfc (k, v) hmem)).2 hmv rest
                    · have hfind : (buildInterestTree (.obj es) q).2.find (.key k) = none := by
                        rw [find_build_obj es q k hnd, hl]
                        simp [hmv]
                      rw [leafAtB_cons_none rest hfind]
                      constructor
                      · intro h
                        exact absurd h (by simp)
                      · intro h
                        exact absurd (((ihc (k, v) hmem (hwfc (k, v) hmem)).1).mpr ⟨rest, h⟩) hmv
            | idx i =>
                have hfind : (buildInterestTree (.obj es) q).2.find (.idx i) = none :=
                  find_build_obj_idx es q i
                rw [leafAtB_cons_none rest hfind]
                simp [matchPathB, getPath]
  | harr items ihc =>
      intro hwf
      have hwfc := (wfB_arr items).mp hwf
      have hfst : (buildInterestTree (.arr items) q).1
          = items.any (fun v => (buildInterestTree v q).1) := by
        rw [buildInterestTree_arr]
      constructor
      · rw [hfst]
        constructor
        · intro h
          obtain ⟨v, hv, hm⟩ := List.any_eq_true.mp h
          obtain ⟨j, hj⟩ := List.mem_iff_get.mp hv
          obtain ⟨p', hp'⟩ := ((ihc v hv (hwfc v hv)).1).mp hm
          refine ⟨.idx (Int.ofNat j.1) :: p', ?_⟩
          rw [matchPathB_arr_cons]
          have hget : jgetOpt items (Int.ofNat j.1) = some v := by
            rw [jgetOpt_eq]
            have h0 : (0 : Int) ≤ Int.ofNat j.1 := Int.ofNat_nonneg j.1
            rw [if_pos h0]
            have : (Int.ofNat j.1).toNat = j.1 := rfl
            rw [this, List.get?_eq_get j.2, hj]
          rw [hget]
          exact hp'
        · rintro ⟨p, hp⟩
          cases p with
          | nil => simp [matchPathB, getPath] at hp
          | cons s rest =>
              cases s with
              | idx i =>
                  rw [matchPathB_arr_cons] at hp
                  cases hl : jgetOpt items i with
                  | none => rw [hl] at hp; simp at hp
                  | some v =>
                      rw [hl] at hp
                      have hmem : v ∈ items := by
                        rw [jgetOpt_eq] at hl
                        by_cases h0 : (0 : Int) ≤ i
                        · rw [if_pos h0] at hl
                          exact List.get?_mem hl
                        · rw [if_neg h0] at hl
                          exact absurd hl (by simp)
                      have := ((ihc v hmem (hwfc v hmem)).1).mpr ⟨rest, hp⟩
                      exact List.any_eq_true.mpr ⟨v, hmem, this⟩
              | key k => simp [matchPathB, getPath] at hp
      · intro hm p
        cases p with
        | nil =>
            rw [hfst] at hm
            obtain ⟨v, hv, hmv⟩ := List.any_eq_true.mp hm
            have hne : (buildInterestTree (.arr items) q).2.entries ≠ [] := by
              rw [buildInterestTree_arr]
              simp only [ITree.entries]
              intro hc
              rw [List.filterMap_eq_nil] at hc
              have hv' : v ∈ (List.enumFrom 0 items).map Prod.snd := by
                rw [List.enumFrom_map_snd]
                exact hv
              obtain ⟨e, he, hesnd⟩ := List.mem_map.mp hv'
              have := hc e he
              rw [hesnd] at this
              simp [hmv] at this
            simp only [leafAtB, itreeAt]
            simp [List.isEmpty_iff, hne, matchPathB, getPath]
        | cons s rest =>
            cases s with
            | idx i =>
                rw [matchPathB_arr_cons]
                cases hl : jgetOpt items i with
                | none =>
                    have hfind : (buildInterestTree (.arr items) q).2.find (.idx i) = none := by
                      rw [find_build_arr items q i, hl]
                    rw [leafAtB_cons_none rest hfind]
                | some v =>
                    have hmem : v ∈ items := by
                      rw [jgetOpt_eq] at hl
                      by_cases h0 : (0 : Int) ≤ i
                      · rw [if_pos h0] at hl
                        exact List.get?_mem hl
                      · rw [if_neg h0] at hl
                        exact absurd hl (by simp)
                    by_cases hmv : (buildInterestTree v q).1 = true
                    · have hfind : (buildInterestTree (.arr items) q).2.find (.idx i)
                          = some (buildInterestTree v q).2 := by
                        rw [find_build_arr items q i, hl]
                        simp [hmv]
                      rw [leafAtB_cons_some rest hfind]
                      exact (ihc v hmem (hwfc v hmem)).2 hmv rest
                    · have hfind : (buildInterestTree (.arr items) q).2.find (.idx i) = none := by
                        rw [find_build_arr items q i, hl]
                        simp [hmv]
                      rw [leafAtB_cons_none rest hfind]
                      constructor
                      · intro h
                        exact absurd h (by simp)
                      · intro h
                        exact absurd (((ihc v hmem (hwfc v hmem)).1).mpr ⟨rest, h⟩) hmv
            | key k =>
                have hfind : (buildInterestTree (.arr items) q).2.find (.key k) = none :=
                  find_build_arr_key items q k
                rw [leafAtB_cons_none rest hfind]
                simp [matchPathB, getPath]

/-- C1: for every JSON value and non-empty query, `build_interest_tree`
returns `matched = true` iff some string leaf reachable from the value
contains the query as a literal substring, and the leaves of the returned
interest tree are exactly the paths of those matching strings (so every leaf
covers a subtree with a match, and every matching string's path is in the
tree). -/
theorem interest_analyzer_correct (v : Json) (q : String) (hq : q ≠ "")
    (hwf : wfB v = true) :
    (((buildInterestTree v q).1 = true) ↔ ∃ p, matchPathB v q p = true) ∧
    ((buildInterestTree v q).1 = true →
      ∀ p, (leafAtB (buildInterestTree v q).2 p = true ↔ matchPathB v q p = true)) :=
  buildInterest_spec q v hwf

theorem interest_analyzer_correct_witness :
    ("x" : String) ≠ "" ∧ wfB (Json.obj [("a", .str "xy"), ("b", .num 3)]) = true ∧
    ((((buildInterestTree (Json.obj [("a", .str "xy"), ("b", .num 3)]) "x").1 = true) ↔
        ∃ p, matchPathB (Json.obj [("a", .str "xy"), ("b", .num 3)]) "x" p = true) ∧
      (((buildInterestTree (Json.obj [("a", .str "xy"), ("b", .num 3)]) "x").1 = true) →
        ∀ p, (leafAtB (buildInterestTree (Json.obj [("a", .str "xy"), ("b", .num 3)]) "x").2
              p = true ↔
          matchPathB (Json.obj [("a", .str "xy"), ("b", .num 3)]) "x" p = true))) :=
  ⟨by decide, by simp [wfB, wfEntriesB],
    interest_analyzer_correct (Json.obj [("a", .str "xy"), ("b", .num 3)]) "x"
      (by decide) (by simp [wfB, wfEntriesB])⟩

/-! ### Sibling grouper lemmas -/

/-- A key survives the interest-tree restriction (line 69). -/
def keptB (it : Option ITree) (k : String) : Bool :=
  match it with
  | some t => (t.find (.key k)).isSome
  | none => true

/-- A key reaches the grouping branch of the key loop: with an active interest
tree every surviving key is filed ungrouped (lines 73-81), otherwise the key
must not be the next target step and its value must be an object. -/
def reachesGroupB (es : List (String × Json)) (nt : Option Step) (it : Option ITree)
    (k : String) : Bool :=
  match it with
  | some _ => false
  | none => !(decide (nt = some (Step.key k))) && isCandidate es k

/-- The grouping candidates of one object level, in iteration order. -/
def groupCandidates (es : List (String × Json)) (nt : Option Step)
    (it : Option ITree) : List String :=
  (es.map Prod.fst).filter (reachesGroupB es nt it)

/-- Association-list lookup on the `groups` dict. -/
def lookupG : List (GroupId × List String) → GroupId → Option (List String)
  | [], _ => none
  | (g', ks) :: rest, g => if g' = g then some ks else lookupG rest g

/-- The fold of `addToGroups` over the candidate keys. -/
def buildGroups (es : List (String × Json)) (gs : List (GroupId × List String))
    (ks : List String) : List (GroupId × List String) :=
  ks.foldl (fun acc k => addToGroups acc (groupIdOf es k) k) gs

theorem classifyKey_eq (es : List (String × Json)) (nt : Option Step)
    (it : Option ITree) (acc : List String × List (GroupId × List String))
    (k : String) :
    classifyKey es nt it acc k =
      if keptB it k then
        (if reachesGroupB es nt it k then (acc.1, addToGroups acc.2 (groupIdOf es k) k)
         else (acc.1 ++ [k], acc.2))
      else acc := by
  obtain ⟨ng, gs⟩ := acc
  cases it with
  | none =>
      by_cases hnt : nt = some (Step.key k)
      · simp [classifyKey, keptB, reachesGroupB, hnt]
      · by_cases hc : isCandidate es k = true
        · simp [classifyKey, keptB, reachesGroupB, hnt, hc]
        · simp only [Bool.not_eq_true] at hc
          simp [classifyKey, keptB, reachesGroupB, hnt, hc]
  | some t =>
      cases hf : t.find (.key k) with
      | none => simp [classifyKey, keptB, reachesGroupB, hf]
      | some t' =>
          by_cases hnt : nt = some (Step.key k) <;>
            simp [classifyKey, keptB, reachesGroupB, hf, hnt]

theorem pass1_fold_fst (es : List (String × Json)) (nt : Option Step)
    (it : Option ITree) :
    ∀ (ks : List String) (ng : List String) (gs : List (GroupId × List String)),
    (ks.foldl (classifyKey es nt it) (ng, gs)).1 =
      ng ++ ks.filter (fun k => keptB it k && !(reachesGroupB es nt it k)) := by
  intro ks
  induction ks with
  | nil => intro ng gs; simp
  | cons k rest ih =>
      intro ng gs
      rw [List.foldl_cons, classifyKey_eq]
      by_cases hk : keptB it k = true
      · by_cases hg : reachesGroupB es nt it k = true
        · simp only [hk, if_true, hg]
          rw [ih]
          simp [hg]
        · simp only [Bool.not_eq_true] at hg
          simp only [hk, if_true, hg, Bool.false_eq_true, if_false]
          rw [ih]
          simp [hk, hg]
      · simp only [Bool.not_eq_true] at hk
        simp only [hk, Bool.false_eq_true, if_false]
        rw [ih]
        simp [hk]

theorem pass1_fold_snd (es : List (String × Json)) (nt : Option Step)
    (it : Option ITree) :
    ∀ (ks : List String) (ng : List String) (gs : List (GroupId × List String)),
    (ks.foldl (classifyKey es nt it) (ng, gs)).2 =
      buildGroups es gs (ks.filter (reachesGroupB es nt it)) := by
  intro ks
  induction ks with
  | nil => intro ng gs; simp [buildGroups]
  | cons k rest ih =>
      intro ng gs
      rw [List.foldl_cons, classifyKey_eq]
      by_cases hk : keptB it k = true
      · by_cases hg : reachesGroupB es nt it k = true
        · have hkept : reachesGroupB es nt it k = true → keptB it k = true := fun _ => hk
          simp only [hk, if_true, hg, if_true]
          rw [ih]
          simp [hg, buildGroups]
        · simp only [Bool.not_eq_true] at hg
          simp only [hk, if_true, hg, Bool.false_eq_true, if_false]
          rw [ih]
          simp [hg]
      · simp only [Bool.not_eq_true] at hk
        simp only [hk, Bool.false_eq_true, if_false]
        rw [ih]
        have : reachesGroupB es nt it k = false := by
          cases it with
          | none => simp [keptB] at hk
          | some t => simp [reachesGroupB]
        simp [this]

theorem pass1_fst (es : List (String × Json)) (nt : Option Step) (it : Option ITree) :
    (pass1 es nt it).1 =
      (es.map Prod.fst).filter (fun k => keptB it k && !(reachesGroupB es nt it k)) := by
  unfold pass1
  rw [pass1_fold_fst]
  simp

theorem pass1_snd (es : List (String × Json)) (nt : Option Step) (it : Option ITree) :
    (pass1 es nt it).2 = buildGroups es [] (groupCandidates es nt it) := by
  unfold pass1 groupCandidates
  rw [pass1_fold_snd]

theorem lookupG_addToGroups_self (gs : List (GroupId × List String)) (g : GroupId)
    (k : String) :
    lookupG (addToGroups gs g k) g = some ((lookupG gs g).getD [] ++ [k]) := by
  induction gs with
  | nil => simp [addToGroups, lookupG]
  | cons p rest ih =>
      obtain ⟨g', ks⟩ := p
      by_cases hg : g' = g
      · subst hg
        simp [addToGroups, lookupG]
      · simp [addToGroups, lookupG, hg, ih]

theorem lookupG_addToGroups_other (gs : List (GroupId × List String)) (g g' : GroupId)
    (k : String) (hne : g' ≠ g) :
    lookupG (addToGroups gs g k) g' = lookupG gs g' := by
  induction gs with
  | nil => simp [addToGroups, lookupG, Ne.symm hne]
  | cons p rest ih =>
      obtain ⟨g₀, ks⟩ := p
      by_cases hg : g₀ = g
      · subst hg
        simp [addToGroups, lookupG, Ne.symm hne]
      · by_cases hg' : g₀ = g'
        · subst hg'
          simp [addToGroups, lookupG, hg]
        · simp [addToGroups, lookupG, hg, hg', ih]

theorem addToGroups_keys (gs : List (GroupId × List String)) (g : GroupId) (k : String) :
    (addToGroups gs g k).map Prod.fst =
      if (lookupG gs g).isSome then gs.map Prod.fst else gs.map Prod.fst ++ [g] := by
  induction gs with
  | nil => simp [addToGroups, lookupG]
  | cons p rest ih =>
      obtain ⟨g₀, ks⟩ := p
      by_cases hg : g₀ = g
      · subst hg
        simp [addToGroups, lookupG]
      · simp only [addToGroups, hg, if_false, List.map_cons, lookupG, ih]
        by_cases hs : (lookupG rest g).isSome <;> simp [hs]

theorem lookupG_ne_none_of_mem_keys (gs : List (GroupId × List String)) (x : GroupId)
    (hx : x ∈ gs.map Prod.fst) : lookupG gs x ≠ none := by
  induction gs with
  | nil => simp at hx
  | cons p rest ih =>
      obtain ⟨g₀, ks₀⟩ := p
      simp only [List.map_cons, List.mem_cons] at hx
      rcases hx with h | h
      · simp [lookupG, h.symm]
      · by_cases hg : g₀ = x
        · simp [lookupG, hg]
        · simp only [lookupG, hg, if_false]
          exact ih h

theorem addToGroups_keys_nodup (gs : List (GroupId × List String)) (g : GroupId)
    (k : String) (hnd : (gs.map Prod.fst).Nodup) :
    ((addToGroups gs g k).map Prod.fst).Nodup := by
  rw [addToGroups_keys]
  by_cases hs : (lookupG gs g).isSome = true
  · simp [hs, hnd]
  · rw [if_neg hs]
    rw [List.nodup_append]
    refine ⟨hnd, List.nodup_singleton g, ?_⟩
    intro x hx hx'
    simp at hx'
    subst hx'
    exact (lookupG_ne_none_of_mem_keys gs _ hx) (Option.not_isSome_iff_eq_none.mp hs)

theorem lookupG_buildGroups (es : List (String × Json)) (g : GroupId) :
    ∀ (ks : List String) (gs : List (GroupId × List String)),
    lookupG (buildGroups es gs ks) g =
      match lookupG gs g with
      | some v => some (v ++ ks.filter (fun k => groupIdOf es k = g))
      | none =>
          if (ks.filter (fun k => groupIdOf es k = g)).isEmpty then none
          else some (ks.filter (fun k => groupIdOf es k = g)) := by
  intro ks
  induction ks with
  | nil =>
      intro gs
      cases h : lookupG gs g <;> simp [buildGroups, h]
  | cons k rest ih =>
      intro gs
      have hstep : buildGroups es gs (k :: rest)
          = buildGroups es (addToGroups gs (groupIdOf es k) k) rest := by
        simp [buildGroups]
      rw [hstep, ih]
      by_cases hg : groupIdOf es k = g
      · rw [hg, lookupG_addToGroups_self]
        cases h : lookupG gs g with
        | some v => simp [h, List.filter_cons, hg]
        | none => simp [h, List.filter_cons, hg]
      · rw [lookupG_addToGroups_other gs (groupIdOf es k) g k (fun hc => hg hc.symm)]
        cases h : lookupG gs g with
        | some v => simp [h, List.filter_cons, hg]
        | none => simp [h, List.filter_cons, hg]

theorem buildGroups_keys_nodup (es : List (String × Json)) :
    ∀ (ks : List String) (gs : List (GroupId × List String)),
    (gs.map Prod.fst).Nodup → ((buildGroups es gs ks).map Prod.fst).Nodup := by
  intro ks
  induction ks with
  | nil => intro gs h; simpa [buildGroups] using h
  | cons k rest ih =>
      intro gs h
      have hstep : buildGroups es gs (k :: rest)
          = buildGroups es (addToGroups gs (groupIdOf es k) k) rest := by
        simp [buildGroups]
      rw [hstep]
      exact ih _ (addToGroups_keys_nodup gs (groupIdOf es k) k h)

theorem mem_of_lookupG {gs : List (GroupId × List String)} {g : GroupId}
    {v : List String} (h : lookupG gs g = some v) : (g, v) ∈ gs := by
  induction gs with
  | nil => simp [lookupG] at h
  | cons p rest ih =>
      obtain ⟨g₀, ks₀⟩ := p
      simp only [lookupG] at h
      by_cases hg : g₀ = g
      · subst hg
        simp at h
        subst h
        exact List.mem_cons_self _ _
      · simp [hg] at h
        exact List.mem_cons_of_mem _ (ih h)

theorem lookupG_of_mem {gs : List (GroupId × List String)} {g : GroupId}
    {v : List String} (hnd : (gs.map Prod.fst).Nodup) (hm : (g, v) ∈ gs) :
    lookupG gs g = some v := by
  induction gs with
  | nil => simp at hm
  | cons p rest ih =>
      obtain ⟨g₀, ks₀⟩ := p
      simp only [List.map_cons, List.nodup_cons] at hnd
      rcases List.mem_cons.mp hm with h | h
      · rw [Prod.mk.injEq] at h
        obtain ⟨h1, h2⟩ := h
        subst h1
        subst h2
        simp [lookupG]
      · by_cases hg : g₀ = g
        · subst hg
          exact absurd (List.mem_map_of_mem Prod.fst h) hnd.1
        · simp only [lookupG, hg, if_false]
          exact ih hnd.2 h

theorem dissolve_snd (gs : List (GroupId × List String)) :
    (dissolve gs).2 = gs.filter (fun p => decide (p.2.length > 1)) := by
  induction gs with
  | nil => simp [dissolve]
  | cons p rest ih =>
      obtain ⟨g, ks⟩ := p
      by_cases h : ks.length > 1
      · simp [dissolve, h, List.filter_cons, ih]
      · simp [dissolve, h, List.filter_cons, ih]

theorem dissolve_fst (gs : List (GroupId × List String)) :
    (dissolve gs).1 =
      (gs.filter (fun p => !decide (p.2.length > 1))).bind Prod.snd := by
  induction gs with
  | nil => simp [dissolve]
  | cons p rest ih =>
      obtain ⟨g, ks⟩ := p
      by_cases h : ks.length > 1
      · simp [dissolve, h, List.filter_cons, ih]
      · simp [dissolve, h, List.filter_cons, ih]

theorem mem_group_preItems (es : List (String × Json)) (nt : Option Step)
    (it : Option ITree) (ks : List String) (gid : GroupId) :
    (Item.group ks gid ∈ preItems es nt it) ↔
      (gid, ks) ∈ (dissolve (pass1 es nt it).2).2 := by
  unfold preItems
  rw [List.mem_append]
  constructor
  · rintro (h | h)
    · rcases List.mem_map.mp h with ⟨k, _, hk⟩
      exact absurd hk (by simp)
    · rcases List.mem_map.mp h with ⟨p, hp, hk⟩
      rw [Item.group.injEq] at hk
      obtain ⟨h1, h2⟩ := hk
      have : p = (gid, ks) := by
        rw [Prod.ext_iff]
        exact ⟨h2, h1⟩
      rw [← this]
      exact hp
  · intro h
    right
    exact List.mem_map.mpr ⟨(gid, ks), h, rfl⟩

theorem mem_single_preItems (es : List (String × Json)) (nt : Option Step)
    (it : Option ITree) (k : String) :
    (Item.single k ∈ preItems es nt it) ↔
      k ∈ (pass1 es nt it).1 ++ (dissolve (pass1 es nt it).2).1 := by
  unfold preItems
  rw [List.mem_append]
  constructor
  · rintro (h | h)
    · rcases List.mem_map.mp h with ⟨k', hk', hk⟩
      rw [Item.single.injEq] at hk
      rw [← hk]
      exact hk'
    · rcases List.mem_map.mp h with ⟨p, _, hk⟩
      exact absurd hk (by simp)
  · intro h
    left
    exact List.mem_map.mpr ⟨k, h, rfl⟩

theorem countP_group_preItems (es : List (String × Json)) (nt : Option Step)
    (it : Option ITree) (g : GroupId) :
    (preItems es nt it).countP (fun item => match item with
        | Item.group _ gid => decide (gid = g)
        | _ => false) =
      (dissolve (pass1 es nt it).2).2.countP (fun p => decide (p.1 = g)) := by
  unfold preItems
  rw [List.countP_append]
  have h1 : (((pass1 es nt it).1 ++ (dissolve (pass1 es nt it).2).1).map
      Item.single).countP (fun item => match item with
        | Item.group _ gid => decide (gid = g)
        | _ => false) = 0 := by
    rw [List.countP_map]
    apply List.countP_eq_zero.mpr
    intro k _
    simp [Function.comp]
  rw [h1, List.countP_map, Nat.zero_add]
  have hpt : ((fun item => match item with
      | Item.group _ gid => decide (gid = g)
      | _ => false) ∘ (fun p : GroupId × List String => Item.group p.2 p.1))
      = (fun p : GroupId × List String => decide (p.1 = g)) := by
    funext p
    rfl
  rw [hpt]

theorem countP_assoc_key (g : GroupId) :
    ∀ (l : List (GroupId × List String)), ((l.map Prod.fst).Nodup) →
    l.countP (fun p => decide (p.1 = g)) = if (lookupG l g).isSome then 1 else 0 := by
  intro l
  induction l with
  | nil => intro _; simp [lookupG]
  | cons p rest ih =>
      intro hnd
      obtain ⟨g₀, ks₀⟩ := p
      simp only [List.map_cons, List.nodup_cons] at hnd
      rw [List.countP_cons]
      by_cases hg : g₀ = g
      · subst hg
        have hnone : lookupG rest g₀ = none := by
          cases h : lookupG rest g₀ with
          | none => rfl
          | some v => exact absurd (List.mem_map_of_mem Prod.fst (mem_of_lookupG h)) hnd.1
        rw [ih hnd.2, hnone]
        simp [lookupG]
      · rw [ih hnd.2]
        simp only [lookupG, hg, if_false]
        simp [hg]

theorem pass1_keys_nodup (es : List (String × Json)) (nt : Option Step)
    (it : Option ITree) : (((pass1 es nt it).2).map Prod.fst).Nodup := by
  rw [pass1_snd]
  exact buildGroups_keys_nodup es (groupCandidates es nt it) [] (by simp)

theorem dissolve_keys_nodup (es : List (String × Json)) (nt : Option Step)
    (it : Option ITree) :
    (((dissolve (pass1 es nt it).2).2).map Prod.fst).Nodup := by
  rw [dissolve_snd]
  exact ((List.filter_sublist _).map Prod.fst).nodup (pass1_keys_nodup es nt it)

theorem lookupG_pass1 (es : List (String × Json)) (nt : Option Step)
    (it : Option ITree) (g : GroupId) :
    lookupG (pass1 es nt it).2 g =
      if ((groupCandidates es nt it).filter (fun k => groupIdOf es k = g)).isEmpty
      then none
      else some ((groupCandidates es nt it).filter (fun k => groupIdOf es k = g)) := by
  rw [pass1_snd, lookupG_buildGroups]
  simp [lookupG]

/-- C5: at one object level, the grouping candidates sharing one grouping key
are emitted as exactly one group item covering the whole cluster when the
cluster has two or more members; a singleton cluster is dissolved back into
the ungrouped keys and never appears as a group. -/
theorem sibling_grouper_clusters (es : List (String × Json)) (nt : Option Step)
    (it : Option ITree) (g : GroupId) :
    (2 ≤ ((groupCandidates es nt it).filter (fun k => groupIdOf es k = g)).length →
      (buildItems es nt it).countP (fun item => match item with
          | Item.group _ gid => decide (gid = g)
          | _ => false) = 1 ∧
      Item.group ((groupCandidates es nt it).filter (fun k => groupIdOf es k = g)) g
        ∈ buildItems es nt it) ∧
    (((groupCandidates es nt it).filter (fun k => groupIdOf es k = g)).length = 1 →
      (buildItems es nt it).countP (fun item => match item with
          | Item.group _ gid => decide (gid = g)
          | _ => false) = 0 ∧
      ∀ k ∈ (groupCandidates es nt it).filter (fun k => groupIdOf es k = g),
        Item.single k ∈ buildItems es nt it) := by
  have hcount : ∀ p : Item → Bool,
      (buildItems es nt it).countP p = (preItems es nt it).countP p :=
    fun p => (sortByLe_perm _ _).countP_eq p
  have hlook := lookupG_pass1 es nt it g
  constructor
  · intro hlen
    have hne : (groupCandidates es nt it).filter (fun k => groupIdOf es k = g) ≠ [] := by
      intro h
      rw [h] at hlen
      simp at hlen
    have hemp : ((groupCandidates es nt it).filter
        (fun k => groupIdOf es k = g)).isEmpty = false := by
      simpa [List.isEmpty_iff] using hne
    rw [hemp] at hlook
    simp only [Bool.false_eq_true, if_false] at hlook
    have hmem2 : (g, (groupCandidates es nt it).filter (fun k => groupIdOf es k = g))
        ∈ (pass1 es nt it).2 := mem_of_lookupG hlook
    have hd2 : (g, (groupCandidates es nt it).filter (fun k => groupIdOf es k = g))
        ∈ (dissolve (pass1 es nt it).2).2 := by
      rw [dissolve_snd]
      rw [List.mem_filter]
      exact ⟨hmem2, by simp; omega⟩
    constructor
    · rw [hcount, countP_group_preItems,
        countP_assoc_key g _ (dissolve_keys_nodup es nt it)]
      rw [lookupG_of_mem (dissolve_keys_nodup es nt it) hd2]
      simp
    · unfold buildItems
      rw [mem_sortByLe]
      exact (mem_group_preItems es nt it _ g).mpr hd2
  · intro hlen
    have hne : (groupCandidates es nt it).filter (fun k => groupIdOf es k = g) ≠ [] := by
      intro h
      rw [h] at hlen
      simp at hlen
    have hemp : ((groupCandidates es nt it).filter
        (fun k => groupIdOf es k = g)).isEmpty = false := by
      simpa [List.isEmpty_iff] using hne
    rw [hemp] at hlook
    simp only [Bool.false_eq_true, if_false] at hlook
    have hmem2 : (g, (groupCandidates es nt it).filter (fun k => groupIdOf es k = g))
        ∈ (pass1 es nt it).2 := mem_of_lookupG hlook
    have hnone : lookupG (dissolve (pass1 es nt it).2).2 g = none := by
      cases h : lookupG (dissolve (pass1 es nt it).2).2 g with
      | none => rfl
      | some v =>
          exfalso
          have hmv := mem_of_lookupG h
          rw [dissolve_snd, List.mem_filter] at hmv
          have := lookupG_of_mem (pass1_keys_nodup es nt it) hmv.1
          rw [hlook] at this
          injection this with hv
          have hlen2 := hmv.2
          rw [← hv] at hlen2
          simp at hlen2
          omega
    constructor
    · rw [hcount, countP_group_preItems,
        countP_assoc_key g _ (dissolve_keys_nodup es nt it), hnone]
      simp
    · intro k hk
      unfold buildItems
      rw [mem_sortByLe]
      apply (mem_single_preItems es nt it k).mpr
      rw [List.mem_append]
      right
      rw [dissolve_fst]
      rw [List.mem_bind]
      refine ⟨(g, (groupCandidates es nt it).filter (fun k => groupIdOf es k = g)), ?_, hk⟩
      rw [List.mem_filter]
      refine ⟨hmem2, ?_⟩
      simp
      omega

/-- C7 (amended): the final item sequence merges ungrouped keys and groups
into one list sorted by the string form of the sort key (a single's key, a
group's first member in insertion order — not necessarily its smallest). -/
theorem items_sorted_by_sort_key (es : List (String × Json)) (nt : Option Step)
    (it : Option ITree) :
    ((buildItems es nt it).Pairwise (fun a b => strLe a.sortKey b.sortKey = true)) ∧
    (buildItems es nt it).Perm (preItems es nt it) := by
  constructor
  · unfold buildItems
    apply pairwise_sortByLe
    · intro a b c h1 h2
      exact strLe_trans h1 h2
    · intro a b
      exact strLe_total _ _
  · exact sortByLe_perm _ _

/-- C7 counterexample: the first member of a group is the first member in
insertion order, not the lexicographically smallest one. -/
theorem group_first_member_not_minimal :
    buildItems [("b-2", Json.obj [("n", Json.num 1)]),
                ("a-1", Json.obj [("n", Json.num 1)])] none none
      = [Item.group ["b-2", "a-1"] ⟨0, 1, some '-', ["n"]⟩] ∧
    (["b-2", "a-1"] : List String).headD "" = "b-2" ∧
    ("a-1" : String) ∈ ["b-2", "a-1"] ∧
    lexLt ("a-1" : String).data ("b-2" : String).data = true := by
  refine ⟨by decide, by decide, by decide, by decide⟩

theorem isCandidate_obj {es : List (String × Json)} {k : String}
    (h : isCandidate es k = true) : ∃ ces, lookupJ es k = some (Json.obj ces) := by
  unfold isCandidate at h
  cases hl : lookupJ es k with
  | none => rw [hl] at h; simp at h
  | some v =>
      rw [hl] at h
      cases v <;> simp at h
      case obj ces => exact ⟨ces, rfl⟩

theorem reaches_isCandidate {es : List (String × Json)} {nt : Option Step}
    {it : Option ITree} {k : String} (h : reachesGroupB es nt it k = true) :
    isCandidate es k = true := by
  cases it with
  | none =>
      simp only [reachesGroupB, Bool.and_eq_true] at h
      exact h.2
  | some t => simp [reachesGroupB] at h

/-- C9: every member key of an emitted group has an object value, so the
representative's value is always an object and the array branch of the group
recursion is unreachable. -/
theorem group_members_are_objects (es : List (String × Json)) (nt : Option Step)
    (it : Option ITree) (ks : List String) (gid : GroupId)
    (hmem : Item.group ks gid ∈ buildItems es nt it) :
    2 ≤ ks.length ∧
    (∀ k ∈ ks, ∃ ces, lookupJ es k = some (Json.obj ces)) ∧
    ∃ ces, jlookup es (ks.headD "") = Json.obj ces := by
  unfold buildItems at hmem
  rw [mem_sortByLe, mem_group_preItems, dissolve_snd, List.mem_filter] at hmem
  obtain ⟨hp, hlen⟩ := hmem
  simp only [decide_eq_true_eq] at hlen
  have hlk := lookupG_of_mem (pass1_keys_nodup es nt it) hp
  rw [lookupG_pass1] at hlk
  by_cases hemp : ((groupCandidates es nt it).filter
      (fun k => groupIdOf es k = gid)).isEmpty = true
  · rw [hemp] at hlk
    simp at hlk
  · simp only [Bool.not_eq_true] at hemp
    rw [hemp] at hlk
    simp only [Bool.false_eq_true, if_false, Option.some.injEq] at hlk
    have hks : ks = (groupCandidates es nt it).filter (fun k => groupIdOf es k = gid) :=
      hlk.symm
    have hobj : ∀ k ∈ ks, ∃ ces, lookupJ es k = some (Json.obj ces) := by
      intro k hk
      rw [hks, List.mem_filter] at hk
      have hcand : k ∈ groupCandidates es nt it := hk.1
      unfold groupCandidates at hcand
      rw [List.mem_filter] at hcand
      exact isCandidate_obj (reaches_isCandidate hcand.2)
    refine ⟨by omega, hobj, ?_⟩
    have hne : ks ≠ [] := by
      intro h
      rw [h] at hlen
      simp at hlen
    have hhd : ks.headD "" ∈ ks := by
      cases ks with
      | nil => exact absurd rfl hne
      | cons a rest => simp
    obtain ⟨ces, hces⟩ := hobj _ hhd
    refine ⟨ces, ?_⟩
    unfold jlookup
    rw [hces]
    rfl

theorem group_members_are_objects_witness :
    (Item.group ["b-2", "a-1"] ⟨0, 1, some '-', ["n"]⟩ ∈
      buildItems [("b-2", Json.obj [("n", Json.num 1)]),
                  ("a-1", Json.obj [("n", Json.num 1)])] none none) ∧
    (2 ≤ (["b-2", "a-1"] : List String).length ∧
      (∀ k ∈ (["b-2", "a-1"] : List String), ∃ ces,
        lookupJ [("b-2", Json.obj [("n", Json.num 1)]),
                 ("a-1", Json.obj [("n", Json.num 1)])] k = some (Json.obj ces)) ∧
      ∃ ces, jlookup [("b-2", Json.obj [("n", Json.num 1)]),
                      ("a-1", Json.obj [("n", Json.num 1)])]
          ((["b-2", "a-1"] : List String).headD "") = Json.obj ces) :=
  ⟨by decide,
    group_members_are_objects
      [("b-2", Json.obj [("n", Json.num 1)]), ("a-1", Json.obj [("n", Json.num 1)])]
      none none ["b-2", "a-1"] ⟨0, 1, some '-', ["n"]⟩ (by decide)⟩

/-- The sliding windows of three consecutive characters: one per position
with both neighbours existing. -/
def interiorTriples (l : List Char) : List (Char × Char × Char) :=
  l.zip (l.tail.zip l.tail.tail)

theorem countInterior_spec (c : Char) : ∀ l : List Char,
    countInterior c l = (interiorTriples l).countP
      (fun w => w.2.1 = c && !pyIsSpace w.1 && !pyIsSpace w.2.2)
  | [] => rfl
  | [_] => rfl
  | [_, _] => rfl
  | a :: b :: d :: rest => by
      have ih := countInterior_spec c (b :: d :: rest)
      have htr : interiorTriples (a :: b :: d :: rest)
          = (a, (b, d)) :: interiorTriples (b :: d :: rest) := rfl
      rw [htr, List.countP_cons, ← ih]
      show (if b = c && !pyIsSpace a && !pyIsSpace d then 1 else 0)
          + countInterior c (b :: d :: rest) = _
      by_cases h : (b = c && !pyIsSpace a && !pyIsSpace d) = true <;>
        simp [h] <;> omega

/-- C8: delimiter detection counts interior occurrences (both neighbours
exist and are non-whitespace), tries pipes before dashes, gives pipes
priority, and a key without interior delimiters still groups purely by its
child-key structure with label pattern `<fld1>`. -/
theorem delimiter_detection (k k' : String) (es : List (String × Json)) :
    (countInterior '|' k.data = (interiorTriples k.data).countP
        (fun w => w.2.1 = '|' && !pyIsSpace w.1 && !pyIsSpace w.2.2)) ∧
    (countInterior '-' k.data = (interiorTriples k.data).countP
        (fun w => w.2.1 = '-' && !pyIsSpace w.1 && !pyIsSpace w.2.2)) ∧
    ((sepInfo k).2.2 = if countInterior '|' k.data ≠ 0 then some '|'
        else if countInterior '-' k.data ≠ 0 then some '-' else none) ∧
    ((sepInfo k).1 = if countInterior '|' k.data ≠ 0 then countInterior '|' k.data
        else 0) ∧
    ((sepInfo k).2.1 = if countInterior '|' k.data ≠ 0 then 0
        else countInterior '-' k.data) ∧
    (countInterior '|' k.data = 0 → countInterior '-' k.data = 0 →
      countInterior '|' k'.data = 0 → countInterior '-' k'.data = 0 →
      ((groupIdOf es k = groupIdOf es k') ↔
        keySetOf (childEntriesOf es k) = keySetOf (childEntriesOf es k')) ∧
      labelPattern (groupIdOf es k) = "<fld1>") := by
  refine ⟨countInterior_spec '|' k.data, countInterior_spec '-' k.data, ?_, ?_, ?_, ?_⟩
  · unfold sepInfo
    by_cases hp : countInterior '|' k.data > 0
    · simp only [hp, if_true]
      have : countInterior '|' k.data ≠ 0 := by omega
      simp [this]
    · have h0 : countInterior '|' k.data = 0 := by omega
      simp only [hp, if_false, h0]
      by_cases hd : countInterior '-' k.data > 0
      · simp only [hd, if_true]
        have : countInterior '-' k.data ≠ 0 := by omega
        simp [this]
      · have h0' : countInterior '-' k.data = 0 := by omega
        simp [hd, h0']
  · unfold sepInfo
    by_cases hp : countInterior '|' k.data > 0
    · have : countInterior '|' k.data ≠ 0 := by omega
      simp [hp, this]
    · have h0 : countInterior '|' k.data = 0 := by omega
      by_cases hd : countInterior '-' k.data > 0 <;> simp [hp, hd, h0]
  · unfold sepInfo
    by_cases hp : countInterior '|' k.data > 0
    · have : countInterior '|' k.data ≠ 0 := by omega
      simp [hp, this]
    · have h0 : countInterior '|' k.data = 0 := by omega
      by_cases hd : countInterior '-' k.data > 0 <;> simp [hp, hd, h0] <;> omega
  · intro hp hd hp' hd'
    have hsk : sepInfo k = (0, 0, none) := by
      unfold sepInfo
      simp [hp, hd]
    have hsk' : sepInfo k' = (0, 0, none) := by
      unfold sepInfo
      simp [hp', hd']
    constructor
    · unfold groupIdOf
      rw [hsk, hsk']
      simp [GroupId.mk.injEq]
    · unfold groupIdOf
      rw [hsk]
      rfl

theorem delimiter_detection_witness :
    (countInterior '|' ("ab" : String).data = 0 ∧
     countInterior '-' ("ab" : String).data = 0 ∧
     countInterior '|' ("cd" : String).data = 0 ∧
     countInterior '-' ("cd" : String).data = 0) ∧
    (((groupIdOf [("ab", Json.obj [("n", Json.num 1)]),
                  ("cd", Json.obj [("n", Json.num 1)])] "ab"
        = groupIdOf [("ab", Json.obj [("n", Json.num 1)]),
                     ("cd", Json.obj [("n", Json.num 1)])] "cd") ↔
       keySetOf (childEntriesOf [("ab", Json.obj [("n", Json.num 1)]),
                                 ("cd", Json.obj [("n", Json.num 1)])] "ab")
         = keySetOf (childEntriesOf [("ab", Json.obj [("n", Json.num 1)]),
                                     ("cd", Json.obj [("n", Json.num 1)])] "cd")) ∧
     labelPattern (groupIdOf [("ab", Json.obj [("n", Json.num 1)]),
                              ("cd", Json.obj [("n", Json.num 1)])] "ab") = "<fld1>") :=
  ⟨⟨by decide, by decide, by decide, by decide⟩,
   (delimiter_detection "ab" "cd"
      [("ab", Json.obj [("n", Json.num 1)]), ("cd", Json.obj [("n", Json.num 1)])]
    ).2.2.2.2.2 (by decide) (by decide) (by decide) (by decide)⟩

theorem sibling_grouper_clusters_witness :
    (2 ≤ ((groupCandidates [("b-2", Json.obj [("n", Json.num 1)]),
            ("a-1", Json.obj [("n", Json.num 1)])] none none).filter
            (fun k => groupIdOf [("b-2", Json.obj [("n", Json.num 1)]),
              ("a-1", Json.obj [("n", Json.num 1)])] k
                = (⟨0, 1, some '-', ["n"]⟩ : GroupId))).length ∧
      (buildItems [("b-2", Json.obj [("n", Json.num 1)]),
        ("a-1", Json.obj [("n", Json.num 1)])] none none).countP
          (fun item => match item with
            | Item.group _ gid => decide (gid = (⟨0, 1, some '-', ["n"]⟩ : GroupId))
            | _ => false) = 1 ∧
      Item.group ((groupCandidates [("b-2", Json.obj [("n", Json.num 1)]),
          ("a-1", Json.obj [("n", Json.num 1)])] none none).filter
          (fun k => groupIdOf [("b-2", Json.obj [("n", Json.num 1)]),
            ("a-1", Json.obj [("n", Json.num 1)])] k
              = (⟨0, 1, some '-', ["n"]⟩ : GroupId)))
        (⟨0, 1, some '-', ["n"]⟩ : GroupId)
        ∈ buildItems [("b-2", Json.obj [("n", Json.num 1)]),
            ("a-1", Json.obj [("n", Json.num 1)])] none none) ∧
    (((groupCandidates [("y", Json.obj [("n", Json.num 1)])] none none).filter
        (fun k => groupIdOf [("y", Json.obj [("n", Json.num 1)])] k
          = (⟨0, 0, none, ["n"]⟩ : GroupId))).length = 1 ∧
      (buildItems [("y", Json.obj [("n", Json.num 1)])] none none).countP
          (fun item => match item with
            | Item.group _ gid => decide (gid = (⟨0, 0, none, ["n"]⟩ : GroupId))
            | _ => false) = 0 ∧
      ∀ k ∈ (groupCandidates [("y", Json.obj [("n", Json.num 1)])] none none).filter
          (fun k => groupIdOf [("y", Json.obj [("n", Json.num 1)])] k
            = (⟨0, 0, none, ["n"]⟩ : GroupId)),
        Item.single k ∈ buildItems [("y", Json.obj [("n", Json.num 1)])] none none) :=
  ⟨⟨by decide,
    (sibling_grouper_clusters [("b-2", Json.obj [("n", Json.num 1)]),
        ("a-1", Json.obj [("n", Json.num 1)])] none none
        ⟨0, 1, some '-', ["n"]⟩).1 (by decide)⟩,
   ⟨by decide,
    (sibling_grouper_clusters [("y", Json.obj [("n", Json.num 1)])] none none
        ⟨0, 0, none, ["n"]⟩).2 (by decide)⟩⟩

/-! ### Renderer lemmas and claims -/

@[simp] theorem ROut_app_lines (a b : ROut) : (a.app b).lines = a.lines ++ b.lines := rfl
@[simp] theorem ROut_app_visited (a b : ROut) :
    (a.app b).visited = a.visited ++ b.visited := rfl
@[simp] theorem ROut_app_marked (a b : ROut) :
    (a.app b).marked = a.marked ++ b.marked := rfl
@[simp] theorem ROut_app_groupKeys (a b : ROut) :
    (a.app b).groupKeys = a.groupKeys ++ b.groupKeys := rfl
@[simp] theorem ROut_empty_lines : ROut.empty.lines = [] := rfl
@[simp] theorem ROut_empty_visited : ROut.empty.visited = [] := rfl
@[simp] theorem ROut_empty_marked : ROut.empty.marked = [] := rfl
@[simp] theorem ROut_empty_groupKeys : ROut.empty.groupKeys = [] := rfl

/-- C4: without an active interest-tree restriction, an array visits exactly
one index: the in-bounds integer step of the target path at this depth, else
index `0` (also when the step is an integer out of bounds, or not an integer
at all); and an empty array renders no children. -/
theorem array_default_index (tp : Option (List Step)) (it : Option ITree)
    (q : Option String) (hq : ¬(qTruthy q = true ∧ it.isSome = true)) :
    (∀ (len curLen : Nat),
      indicesToVisit len curLen tp it q =
        (match (match tp with
                | some l => l.get? curLen
                | none => none) with
         | some (.idx i) => if 0 ≤ i ∧ i < (len : Int) then [i] else [0]
         | _ => [0]) ∧
      (indicesToVisit len curLen tp it q).length = 1) ∧
    (∀ (p : List Step) (d : Nat) (l : Bool) (pre : String),
      (printTree (.arr []) p d tp l pre it q).visited = [p]) := by
  have hfalse : (qTruthy q && it.isSome) = false := by
    by_cases h : qTruthy q = true
    · by_cases h' : it.isSome = true
      · exact absurd ⟨h, h'⟩ hq
      · simp only [Bool.not_eq_true] at h'
        simp [h']
    · simp only [Bool.not_eq_true] at h
      simp [h]
  constructor
  · intro len curLen
    have hmain : indicesToVisit len curLen tp it q =
        (match (match tp with
                | some l => l.get? curLen
                | none => none) with
         | some (.idx i) => if 0 ≤ i ∧ i < (len : Int) then [i] else [0]
         | _ => [0]) := by
      unfold indicesToVisit
      rw [hfalse]
      simp only [Bool.false_eq_true, if_false]
      cases tp with
      | none => rfl
      | some l =>
          cases l with
          | nil => simp
          | cons s rest =>
              simp only [List.isEmpty_cons, Bool.false_eq_true, if_false]
              cases hget : (s :: rest).get? curLen with
              | none => simp
              | some step =>
                  cases step with
                  | key k => simp
                  | idx i =>
                      by_cases hi : i = -1
                      · subst hi
                        have hb : ¬((0 : Int) ≤ -1 ∧ (-1 : Int) < (len : Int)) := by
                          intro hc
                          omega
                        simp [hb]
                      · by_cases hb : (0 : Int) ≤ i ∧ i < (len : Int) <;>
                          simp [hi, hb]
    refine ⟨hmain, ?_⟩
    rw [hmain]
    cases htp : (match tp with | some l => l.get? curLen | none => none) with
    | none => rfl
    | some step =>
        cases step with
        | key k => rfl
        | idx i => by_cases hb : (0 : Int) ≤ i ∧ i < (len : Int) <;> simp [hb]
  · intro p d l pre
    simp [printTree]

theorem array_default_index_witness :
    (¬(qTruthy none = true ∧ (none : Option ITree).isSome = true)) ∧
    ((∀ (len curLen : Nat),
      indicesToVisit len curLen (some [Step.idx 1]) none none =
        (match (match (some [Step.idx 1] : Option (List Step)) with
                | some l => l.get? curLen
                | none => none) with
         | some (.idx i) => if 0 ≤ i ∧ i < (len : Int) then [i] else [0]
         | _ => [0]) ∧
      (indicesToVisit len curLen (some [Step.idx 1]) none none).length = 1) ∧
    (∀ (p : List Step) (d : Nat) (l : Bool) (pre : String),
      (printTree (.arr []) p d (some [Step.idx 1]) l pre none none).visited = [p])) :=
  ⟨by decide, array_default_index (some [Step.idx 1]) none none (by decide)⟩

/-- C6 counterexample: with no query active, the string leaf's value is not
shown on its line — the claimed label `a: hello world` never appears (no line
even contains `hello world`). -/
theorem scenario_string_value_not_shown :
    (printTree (Json.obj [("a", .str "hello world"), ("b", .obj [("c", .num 1)])])
        [] 0 none true "" none none).lines
      = ["[root]", "     +--- a", "     +--- b", "         +--- c"] ∧
    ∀ l ∈ (printTree (Json.obj [("a", .str "hello world"), ("b", .obj [("c", .num 1)])])
        [] 0 none true "" none none).lines,
      ¬(("hello world" : String).data <:+: l.data) := by
  have hline : (printTree (Json.obj [("a", .str "hello world"),
        ("b", .obj [("c", .num 1)])]) [] 0 none true "" none none).lines
      = ["[root]", "     +--- a", "     +--- b", "         +--- c"] := by
    simp [printTree, processDictChildren, processItems, selfLine, childPrefixOf,
      nextTargetOf, tpTruthy, buildItems, preItems, pass1, classifyKey, dissolve,
      isCandidate, lookupJ, jlookup, groupIdOf, sepInfo, keySetOf, childEntriesOf,
      sortByLe, insertS, Item.sortKey, strLe, lexLt, ROut.app, ROut.empty,
      countInterior]
  refine ⟨hline, ?_⟩
  rw [hline]
  decide

/-- C6 (amended): on `{"a": "hello world", "b": {"c": 1}}` with no path and
no query, the output is the root line, then children labelled `a` and `b`
(the string value is only appended under an active matching query), then
under `b` the child `c`. -/
theorem scenario_no_query_rendering :
    (printTree (Json.obj [("a", .str "hello world"), ("b", .obj [("c", .num 1)])])
        [] 0 none true "" none none).lines
      = ["[root]", "     +--- a", "     +--- b", "         +--- c"] := by
  simp [printTree, processDictChildren, processItems, selfLine, childPrefixOf,
    nextTargetOf, tpTruthy, buildItems, preItems, pass1, classifyKey, dissolve,
    isCandidate, lookupJ, jlookup, groupIdOf, sepInfo, keySetOf, childEntriesOf,
    sortByLe, insertS, Item.sortKey, strLe, lexLt, ROut.app, ROut.empty,
    countInterior]

theorem qTruthy_some_of_ne (q : String) (hq : q ≠ "") : qTruthy (some q) = true := by
  cases h : q.isEmpty with
  | false => simp [qTruthy, h]
  | true => exact absurd ((String.isEmpty_iff q).mp h) hq

theorem indicesToVisit_interest (len curLen : Nat) (tp : Option (List Step))
    (t : ITree) (q : String) (hq : q ≠ "") :
    indicesToVisit len curLen tp (some t) (some q) = intKeysSorted t := by
  unfold indicesToVisit
  rw [qTruthy_some_of_ne q hq]
  simp

theorem insertS_map_single (k : String) (l : List String) :
    insertS (fun a b => strLe a.sortKey b.sortKey) (Item.single k) (l.map Item.single)
      = (insertS strLe k l).map Item.single := by
  induction l with
  | nil => rfl
  | cons b bs ih =>
      simp only [List.map_cons, insertS]
      have hck : strLe (Item.single k).sortKey (Item.single b).sortKey = strLe k b := rfl
      simp only [hck]
      by_cases h : strLe k b = true
      · simp [h]
      · simp only [Bool.not_eq_true] at h
        simp [h, ih]

theorem sortByLe_map_single (l : List String) :
    sortByLe (fun a b => strLe a.sortKey b.sortKey) (l.map Item.single)
      = (sortByLe strLe l).map Item.single := by
  induction l with
  | nil => rfl
  | cons k rest ih =>
      simp only [List.map_cons, sortByLe, ih, insertS_map_single]

theorem groupCandidates_interest (es : List (String × Json)) (nt : Option Step)
    (t : ITree) : groupCandidates es nt (some t) = [] := by
  unfold groupCandidates
  rw [List.filter_eq_nil_iff]
  intro k _
  simp [reachesGroupB]

/-- With an active interest tree, one object level produces exactly the
singles of the surviving keys (in sorted order) and no groups. -/
theorem buildItems_interest (es : List (String × Json)) (nt : Option Step)
    (t : ITree) :
    buildItems es nt (some t) =
      (sortByLe strLe ((es.map Prod.fst).filter
        (fun k => (t.find (.key k)).isSome))).map Item.single := by
  unfold buildItems preItems
  show sortByLe (fun a b => strLe a.sortKey b.sortKey)
      (((pass1 es nt (some t)).1 ++ (dissolve (pass1 es nt (some t)).2).1).map
        Item.single ++ (dissolve (pass1 es nt (some t)).2).2.map
          (fun g => Item.group g.2 g.1)) = _
  rw [pass1_snd, groupCandidates_interest]
  have hd : dissolve (buildGroups es [] []) = ([], []) := rfl
  rw [hd]
  simp only [List.map_nil, List.append_nil]
  rw [pass1_fst]
  have hfc : (es.map Prod.fst).filter
        (fun k => keptB (some t) k && !(reachesGroupB es nt (some t) k))
      = (es.map Prod.fst).filter (fun k => (t.find (.key k)).isSome) := by
    apply List.filter_congr
    intro k _
    simp [keptB, reachesGroupB]
  rw [hfc, sortByLe_map_single]

theorem lookupIT_isSome_of_mem (l : List (Step × ITree)) (s : Step)
    (h : s ∈ l.map Prod.fst) : (lookupIT l s).isSome = true := by
  induction l with
  | nil => simp at h
  | cons e rest ih =>
      obtain ⟨s₀, t₀⟩ := e
      simp only [List.map_cons, List.mem_cons] at h
      rcases h with h | h
      · simp [lookupIT, h.symm]
      · by_cases hs : s₀ = s
        · simp [lookupIT, hs]
        · simp only [lookupIT, hs, if_false]
          exact ih h

theorem find_isSome_of_mem_intKeys (t : ITree) (i : Int)
    (h : i ∈ intKeysSorted t) : (t.find (.idx i)).isSome = true := by
  unfold intKeysSorted at h
  rw [mem_sortByLe] at h
  rcases List.mem_filterMap.mp h with ⟨e, he, hpick⟩
  have hstep : e.1 = Step.idx i := by
    cases hs : e.1 with
    | key k => rw [hs] at hpick; simp at hpick
    | idx i' =>
        rw [hs] at hpick
        simp at hpick
        rw [hpick]
  apply lookupIT_isSome_of_mem
  rw [← hstep]
  exact List.mem_map_of_mem Prod.fst he

mutual
/-- C10 core: under an active query with an interest tree, rendering a node
never emits a group line. -/
theorem printTree_no_groupKeys (node : Json) (p : List Step) (d : Nat)
    (tp : Option (List Step)) (lst : Bool) (pre : String) (t : ITree) (q : String)
    (hq : q ≠ "") :
    (printTree node p d tp lst pre (some t) (some q)).groupKeys = [] := by
  cases node with
  | null => simp [printTree]
  | bool b => simp [printTree]
  | num n => simp [printTree]
  | str s => simp [printTree]
  | obj es =>
      simp only [printTree, ROut_app_groupKeys]
      show [] ++ (processDictChildren es p d tp (childPrefixOf d pre lst)
          (some t) (some q)).groupKeys = []
      rw [List.nil_append]
      exact processDict_no_groupKeys es p d tp (childPrefixOf d pre lst) t q hq
  | arr items =>
      by_cases he : items.isEmpty = true
      · simp [printTree, he]
      · simp only [Bool.not_eq_true] at he
        simp only [printTree, he, Bool.false_eq_true, if_false, ROut_app_groupKeys]
        show [] ++ (processIdxChildren items
            (indicesToVisit items.length p.length tp (some t) (some q))
            p d tp (childPrefixOf d pre lst) (some t) (some q)).groupKeys = []
        rw [List.nil_append, indicesToVisit_interest _ _ _ _ _ hq]
        exact processIdx_no_groupKeys items (intKeysSorted t) p d tp
          (childPrefixOf d pre lst) t q hq
          (fun i hi => find_isSome_of_mem_intKeys t i hi)
  termination_by (4 * sizeOf node, 0)
  decreasing_by
    all_goals simp_wf
    all_goals exact Prod.Lex.left _ _ (by omega)

theorem processIdx_no_groupKeys (items : List Json) (ixs : List Int) (p : List Step)
    (d : Nat) (tp : Option (List Step)) (cpre : String) (t : ITree) (q : String)
    (hq : q ≠ "") (hix : ∀ i ∈ ixs, (t.find (.idx i)).isSome = true) :
    (processIdxChildren items ixs p d tp cpre (some t) (some q)).groupKeys = [] := by
  cases hxs : ixs with
  | nil => simp [processIdxChildren]
  | cons i rest =>
      have hi := hix i (by rw [hxs]; simp)
      rw [Option.isSome_iff_exists] at hi
      obtain ⟨t', ht'⟩ := hi
      simp only [processIdxChildren, ROut_app_groupKeys]
      show (printTree (jget items i) (p ++ [.idx i]) (d + 1) tp rest.isEmpty cpre
          (t.find (.idx i)) (some q)).groupKeys
        ++ (processIdxChildren items rest p d tp cpre (some t) (some q)).groupKeys
          = []
      rw [ht', List.append_eq_nil]
      exact ⟨printTree_no_groupKeys (jget items i) (p ++ [.idx i]) (d + 1) tp
          rest.isEmpty cpre t' q hq,
        processIdx_no_groupKeys items rest p d tp cpre t q hq
          (fun j hj => hix j (by rw [hxs]; exact List.mem_cons_of_mem _ hj))⟩
  termination_by (4 * sizeOf items + 2, ixs.length)
  decreasing_by
    all_goals simp_wf
    · have h := sizeOf_jget_le items i
      exact Prod.Lex.left _ _ (by omega)
    · subst hxs
      exact Prod.Lex.right _ (by simp [List.length_cons])

theorem processDict_no_groupKeys (es : List (String × Json)) (p : List Step)
    (d : Nat) (tp : Option (List Step)) (pre : String) (t : ITree) (q : String)
    (hq : q ≠ "") :
    (processDictChildren es p d tp pre (some t) (some q)).groupKeys = [] := by
  rw [processDictChildren]
  apply processItems_no_groupKeys es _ p d tp pre t q hq
  intro item hitem
  rw [buildItems_interest] at hitem
  rcases List.mem_map.mp hitem with ⟨k, hk, hkeq⟩
  rw [mem_sortByLe, List.mem_filter] at hk
  exact ⟨k, hkeq.symm, hk.2⟩
  termination_by (4 * sizeOf es + 3, 0)
  decreasing_by
    all_goals simp_wf
    all_goals exact Prod.Lex.left _ _ (by omega)

theorem processItems_no_groupKeys (es : List (String × Json)) (items : List Item)
    (p : List Step) (d : Nat) (tp : Option (List Step)) (pre : String) (t : ITree)
    (q : String) (hq : q ≠ "")
    (hitems : ∀ item ∈ items, ∃ k, item = Item.single k ∧
      (t.find (Step.key k)).isSome = true) :
    (processItems es items p d tp pre (some t) (some q)).groupKeys = [] := by
  cases hits : items with
  | nil => simp [processItems]
  | cons item rest =>
      obtain ⟨k, hk, hfind⟩ := hitems item (by rw [hits]; simp)
      subst hk
      rw [Option.isSome_iff_exists] at hfind
      obtain ⟨t', ht'⟩ := hfind
      simp only [processItems, ROut_app_groupKeys]
      show (printTree (jlookup es k) (p ++ [.key k]) (d + 1) tp rest.isEmpty pre
          (t.find (.key k)) (some q)).groupKeys
        ++ (processItems es rest p d tp pre (some t) (some q)).groupKeys = []
      rw [ht', List.append_eq_nil]
      exact ⟨printTree_no_groupKeys (jlookup es k) (p ++ [.key k]) (d + 1) tp
          rest.isEmpty pre t' q hq,
        processItems_no_groupKeys es rest p d tp pre t q hq
          (fun it hit => hitems it (by rw [hits]; exact List.mem_cons_of_mem _ hit))⟩
  termination_by (4 * sizeOf es + 2, items.length)
  decreasing_by
    all_goals simp_wf
    · have h := sizeOf_jlookup_le es k
      exact Prod.Lex.left _ _ (by omega)
    · subst hits
      exact Prod.Lex.right _ (by simp [List.length_cons])
end

/-- C10: in a rendering run with an active query (interest tree present), no
group is ever formed or emitted at any level, and every object level renders
the surviving keys individually as singles. -/
theorem query_rendering_no_groups (v : Json) (t : ITree) (q : String)
    (tp : Option (List Step)) (hq : q ≠ "") :
    (printTree v [] 0 tp true "" (some t) (some q)).groupKeys = [] ∧
    (∀ (es : List (String × Json)) (nt : Option Step), buildItems es nt (some t) =
      (sortByLe strLe ((es.map Prod.fst).filter
        (fun k => (t.find (.key k)).isSome))).map Item.single) :=
  ⟨printTree_no_groupKeys v [] 0 tp true "" t q hq,
   fun es nt => buildItems_interest es nt t⟩

theorem query_rendering_no_groups_witness :
    ("x" : String) ≠ "" ∧
    ((printTree (Json.obj [("a", Json.str "x")]) [] 0 none true ""
        (some (ITree.mk [(Step.key "a", ITree.mk [])])) (some "x")).groupKeys = [] ∧
     (∀ (es : List (String × Json)) (nt : Option Step),
        buildItems es nt (some (ITree.mk [(Step.key "a", ITree.mk [])])) =
          (sortByLe strLe ((es.map Prod.fst).filter
            (fun k => ((ITree.mk [(Step.key "a", ITree.mk [])]).find
              (.key k)).isSome))).map Item.single)) :=
  ⟨by decide,
   query_rendering_no_groups (Json.obj [("a", Json.str "x")])
     (ITree.mk [(Step.key "a", ITree.mk [])]) "x" none (by decide)⟩

theorem itreeAt_cons {t t' : ITree} {s : Step} (r : List Step)
    (h : t.find s = some t') : itreeAt t (s :: r) = itreeAt t' r := by
  simp [itreeAt, h]

mutual
/-- C2 core: with an active interest tree, every visited node lies on a path
of the interest tree. -/
theorem printTree_visited_in_tree (node : Json) (p : List Step) (d : Nat)
    (tp : Option (List Step)) (lst : Bool) (pre : String) (t : ITree) (q : String)
    (hq : q ≠ "") :
    ∀ x ∈ (printTree node p d tp lst pre (some t) (some q)).visited,
      ∃ rest, x = p ++ rest ∧ (itreeAt t rest).isSome = true := by
  cases node with
  | null =>
      intro x hx
      simp [printTree] at hx
      exact ⟨[], by simp [hx], by simp [itreeAt]⟩
  | bool b =>
      intro x hx
      simp [printTree] at hx
      exact ⟨[], by simp [hx], by simp [itreeAt]⟩
  | num n =>
      intro x hx
      simp [printTree] at hx
      exact ⟨[], by simp [hx], by simp [itreeAt]⟩
  | str s =>
      intro x hx
      simp [printTree] at hx
      exact ⟨[], by simp [hx], by simp [itreeAt]⟩
  | obj es =>
      intro x hx
      simp only [printTree, ROut_app_visited] at hx
      rcases List.mem_append.mp hx with hx | hx
      · simp at hx
        exact ⟨[], by simp [hx], by simp [itreeAt]⟩
      · exact processDict_visited_in_tree es p d tp (childPrefixOf d pre lst) t q hq x hx
  | arr items =>
      intro x hx
      by_cases he : items.isEmpty = true
      · simp [printTree, he] at hx
        exact ⟨[], by simp [hx], by simp [itreeAt]⟩
      · simp only [Bool.not_eq_true] at he
        simp only [printTree, he, Bool.false_eq_true, if_false, ROut_app_visited] at hx
        rcases List.mem_append.mp hx with hx | hx
        · simp at hx
          exact ⟨[], by simp [hx], by simp [itreeAt]⟩
        · rw [indicesToVisit_interest _ _ _ _ _ hq] at hx
          exact processIdx_visited_in_tree items (intKeysSorted t) p d tp
            (childPrefixOf d pre lst) t q hq
            (fun i hi => find_isSome_of_mem_intKeys t i hi) x hx
  termination_by (4 * sizeOf node, 0)
  decreasing_by
    all_goals simp_wf
    all_goals exact Prod.Lex.left _ _ (by omega)

theorem processIdx_visited_in_tree (items : List Json) (ixs : List Int)
    (p : List Step) (d : Nat) (tp : Option (List Step)) (cpre : String) (t : ITree)
    (q : String) (hq : q ≠ "")
    (hix : ∀ i ∈ ixs, (t.find (.idx i)).isSome = true) :
    ∀ x ∈ (processIdxChildren items ixs p d tp cpre (some t) (some q)).visited,
      ∃ rest, x = p ++ rest ∧ (itreeAt t rest).isSome = true := by
  cases hxs : ixs with
  | nil =>
      intro x hx
      simp [processIdxChildren] at hx
  | cons i rest =>
      intro x hx
      have hi := hix i (by rw [hxs]; simp)
      rw [Option.isSome_iff_exists] at hi
      obtain ⟨t', ht'⟩ := hi
      simp only [processIdxChildren, ROut_app_visited] at hx
      rcases List.mem_append.mp hx with hx | hx
      · have hx' : x ∈ (printTree (jget items i) (p ++ [Step.idx i]) (d + 1) tp
            rest.isEmpty cpre (t.find (.idx i)) (some q)).visited := hx
        rw [ht'] at hx'
        obtain ⟨r, hr, hsome⟩ := printTree_visited_in_tree (jget items i)
          (p ++ [Step.idx i]) (d + 1) tp rest.isEmpty cpre t' q hq x hx'
        refine ⟨Step.idx i :: r, ?_, ?_⟩
        · rw [hr, List.append_assoc]
          rfl
        · rw [itreeAt_cons r ht']
          exact hsome
      · exact processIdx_visited_in_tree items rest p d tp cpre t q hq
          (fun j hj => hix j (by rw [hxs]; exact List.mem_cons_of_mem _ hj)) x hx
  termination_by (4 * sizeOf items + 2, ixs.length)
  decreasing_by
    all_goals simp_wf
    · have h := sizeOf_jget_le items i
      exact Prod.Lex.left _ _ (by omega)
    · subst hxs
      exact Prod.Lex.right _ (by simp [List.length_cons])

theorem processDict_visited_in_tree (es : List (String × Json)) (p : List Step)
    (d : Nat) (tp : Option (List Step)) (pre : String) (t : ITree) (q : String)
    (hq : q ≠ "") :
    ∀ x ∈ (processDictChildren es p d tp pre (some t) (some q)).visited,
      ∃ rest, x = p ++ rest ∧ (itreeAt t rest).isSome = true := by
  rw [processDictChildren]
  apply processItems_visited_in_tree es _ p d tp pre t q hq
  intro item hitem
  rw [buildItems_interest] at hitem
  rcases List.mem_map.mp hitem with ⟨k, hk, hkeq⟩
  rw [mem_sortByLe, List.mem_filter] at hk
  exact ⟨k, hkeq.symm, hk.2⟩
  termination_by (4 * sizeOf es + 3, 0)
  decreasing_by
    all_goals simp_wf
    all_goals exact Prod.Lex.left _ _ (by omega)

theorem processItems_visited_in_tree (es : List (String × Json)) (items : List Item)
    (p : List Step) (d : Nat) (tp : Option (List Step)) (pre : String) (t : ITree)
    (q : String) (hq : q ≠ "")
    (hitems : ∀ item ∈ items, ∃ k, item = Item.single k ∧
      (t.find (Step.key k)).isSome = true) :
    ∀ x ∈ (processItems es items p d tp pre (some t) (some q)).visited,
      ∃ rest, x = p ++ rest ∧ (itreeAt t rest).isSome = true := by
  cases hits : items with
  | nil =>
      intro x hx
      simp [processItems] at hx
  | cons item rest =>
      intro x hx
      obtain ⟨k, hk, hfind⟩ := hitems item (by rw [hits]; simp)
      subst hk
      rw [Option.isSome_iff_exists] at hfind
      obtain ⟨t', ht'⟩ := hfind
      simp only [processItems, ROut_app_visited] at hx
      rcases List.mem_append.mp hx with hx | hx
      · have hx' : x ∈ (printTree (jlookup es k) (p ++ [Step.key k]) (d + 1) tp
            rest.isEmpty pre (t.find (.key k)) (some q)).visited := hx
        rw [ht'] at hx'
        obtain ⟨r, hr, hsome⟩ := printTree_visited_in_tree (jlookup es k)
          (p ++ [Step.key k]) (d + 1) tp rest.isEmpty pre t' q hq x hx'
        refine ⟨Step.key k :: r, ?_, ?_⟩
        · rw [hr, List.append_assoc]
          rfl
        · rw [itreeAt_cons r ht']
          exact hsome
      · exact processItems_visited_in_tree es rest p d tp pre t q hq
          (fun it hit => hitems it (by rw [hits]; exact List.mem_cons_of_mem _ hit)) x hx
  termination_by (4 * sizeOf es + 2, items.length)
  decreasing_by
    all_goals simp_wf
    · have h := sizeOf_jlookup_le es k
      exact Prod.Lex.left _ _ (by omega)
    · subst hits
      exact Prod.Lex.right _ (by simp [List.length_cons])
end

/-- C2: with an active query and interest tree, a node outside the interest
tree is never visited: every visited path is a path of the interest tree; at
object levels only interest keys survive, each as a single; at array levels
exactly the interest tree's integer keys are visited, in ascending order. -/
theorem query_rendering_subset (v : Json) (t : ITree) (q : String)
    (tp : Option (List Step)) (hq : q ≠ "") :
    (∀ x ∈ (printTree v [] 0 tp true "" (some t) (some q)).visited,
      (itreeAt t x).isSome = true) ∧
    (∀ (es : List (String × Json)) (nt : Option Step), buildItems es nt (some t) =
      (sortByLe strLe ((es.map Prod.fst).filter
        (fun k => (t.find (.key k)).isSome))).map Item.single) ∧
    (∀ (len curLen : Nat), indicesToVisit len curLen tp (some t) (some q)
        = intKeysSorted t) ∧
    (intKeysSorted t).Pairwise (· ≤ ·) := by
  refine ⟨?_, fun es nt => buildItems_interest es nt t,
    fun len curLen => indicesToVisit_interest len curLen tp t q hq, ?_⟩
  · intro x hx
    obtain ⟨r, hr, hsome⟩ := printTree_visited_in_tree v [] 0 tp true "" t q hq x hx
    rw [hr]
    simpa using hsome
  · have hp := pairwise_sortByLe (fun a b : Int => decide (a ≤ b))
      (fun a b c h1 h2 => by
        simp only [decide_eq_true_eq] at h1 h2 ⊢
        omega)
      (fun a b => by
        rcases Int.le_total a b with h | h
        · left; simpa using h
        · right; simpa using h)
      (t.entries.filterMap (fun e => match e.1 with | .idx i => some i | _ => none))
    unfold intKeysSorted
    exact hp.imp (fun h => by simpa using h)

theorem query_rendering_subset_witness :
    ("x" : String) ≠ "" ∧
    ((∀ x ∈ (printTree (Json.str "x") [] 0 none true ""
        (some (ITree.mk [])) (some "x")).visited,
      (itreeAt (ITree.mk []) x).isSome = true) ∧
    (∀ (es : List (String × Json)) (nt : Option Step),
      buildItems es nt (some (ITree.mk [])) =
        (sortByLe strLe ((es.map Prod.fst).filter
          (fun k => ((ITree.mk []).find (.key k)).isSome))).map Item.single) ∧
    (∀ (len curLen : Nat),
      indicesToVisit len curLen none (some (ITree.mk [])) (some "x")
        = intKeysSorted (ITree.mk [])) ∧
    (intKeysSorted (ITree.mk [])).Pairwise (· ≤ ·)) :=
  ⟨by decide, query_rendering_subset (Json.str "x") (ITree.mk []) "x" none (by decide)⟩

/-! ### Target-path marking lemmas -/

/-- The keys an item covers. -/
def itemKeys : Item → List String
  | .single k => [k]
  | .group ks _ => ks

/-- The default single visited index of the array branch (no query active). -/
theorem indicesToVisit_default (len curLen : Nat) (tp : Option (List Step))
    (it : Option ITree) (q : Option String)
    (hfalse : (qTruthy q && it.isSome) = false) :
    indicesToVisit len curLen tp it q =
      (match (match tp with
              | some l => l.get? curLen
              | none => none) with
       | some (.idx i) => if 0 ≤ i ∧ i < (len : Int) then [i] else [0]
       | _ => [0]) := by
  unfold indicesToVisit
  rw [hfalse]
  simp only [Bool.false_eq_true, if_false]
  cases tp with
  | none => rfl
  | some l =>
      cases l with
      | nil => simp
      | cons s rest =>
          simp only [List.isEmpty_cons, Bool.false_eq_true, if_false]
          cases hget : (s :: rest).get? curLen with
          | none => simp
          | some step =>
              cases step with
              | key k => simp
              | idx i =>
                  by_cases hi : i = -1
                  · subst hi
                    have hb : ¬((0 : Int) ≤ -1 ∧ (-1 : Int) < (len : Int)) := by
                      intro hc
                      omega
                    simp [hb]
                  · by_cases hb : (0 : Int) ≤ i ∧ i < (len : Int) <;> simp [hi, hb]

theorem prefix_snoc_iff (p P : List Step) (s : Step) :
    p ++ [s] <+: P ↔ p <+: P ∧ P.get? p.length = some s := by
  constructor
  · rintro ⟨u, hu⟩
    constructor
    · exact ⟨[s] ++ u, by rw [← List.append_assoc, hu]⟩
    · rw [← hu, List.append_assoc, List.get?_append_right (le_refl p.length)]
      simp
  · rintro ⟨⟨u, hu⟩, hget⟩
    subst hu
    rw [List.get?_append_right (le_refl _)] at hget
    simp at hget
    cases u with
    | nil => simp at hget
    | cons s' u' =>
        simp at hget
        subst hget
        exact ⟨u', by simp⟩

theorem drop_of_prefix (p P : List Step) (u : List Step) (h : p ++ u = P) :
    P.drop p.length = u := by
  rw [← h, List.drop_left]

theorem drop_cons_of_get (P : List Step) (n : Nat) (s : Step)
    (h : P.get? n = some s) : P.drop n = s :: P.drop (n + 1) := by
  rcases List.get?_eq_some.mp h with ⟨hn, hget⟩
  rw [List.drop_eq_get_cons hn, hget]

theorem reachableB_obj_cons (es : List (String × Json)) (k : String) (r : List Step) :
    reachableB (.obj es) (.key k :: r) =
      match lookupJ es k with
      | some v => reachableB v r
      | none => false := by
  cases hl : lookupJ es k <;> simp [reachableB, hl]

theorem reachableB_arr_cons (items : List Json) (i : Int) (r : List Step) :
    reachableB (.arr items) (.idx i :: r) =
      match jgetOpt items i with
      | some v => reachableB v r
      | none => false := by
  cases hl : jgetOpt items i <;> simp [reachableB, hl]

/-- The bare node label of lines 207-216, before marker and value decoration. -/
def selfBase (currentPath : List Step) (depth : Nat) : String :=
  if depth = 0 then "[root]"
  else
    match currentPath.getLast? with
    | some (.idx i) => "[" ++ toString i ++ "]"
    | some (.key k) => k
    | none => ""

theorem selfLine_snd (node : Json) (p : List Step) (d : Nat) (tp : Option (List Step))
    (lst : Bool) (pre : String) (q : Option String) :
    (selfLine node p d tp lst pre q).2 = (tpTruthy tp && decide (tp = some p)) := rfl

theorem selfLine_fst_none (node : Json) (p : List Step) (d : Nat)
    (tp : Option (List Step)) (lst : Bool) (pre : String) :
    (selfLine node p d tp lst pre none).1 =
      pre ++ (if d > 0 then "+--- " else "")
        ++ (if (tpTruthy tp && decide (tp = some p)) = true
            then selfBase p d ++ " <--- TARGET" else selfBase p d) := by
  cases node <;> simp [selfLine, selfBase, ite_self]

theorem selfLine_marked_iff (node : Json) (p P : List Step) (d : Nat) (lst : Bool)
    (pre : String) (hP : P ≠ []) :
    ((selfLine node p d (some P) lst pre none).2 = true) ↔ P = p := by
  rw [selfLine_snd]
  simp [tpTruthy, List.isEmpty_iff, hP]

theorem selfLine_target_suffix (node : Json) (p : List Step) (d : Nat)
    (tp : Option (List Step)) (lst : Bool) (pre : String)
    (h : (selfLine node p d tp lst pre none).2 = true) :
    (" <--- TARGET" : String).data <:+ (selfLine node p d tp lst pre none).1.data := by
  rw [selfLine_snd] at h
  rw [selfLine_fst_none]
  simp only [h, if_true]
  rw [String.data_append, String.data_append]
  exact (List.suffix_append _ _).trans (List.suffix_append _ _)

theorem nextTargetOf_some (P : List Step) (n : Nat) (hP : P ≠ []) :
    nextTargetOf (some P) n = P.get? n := by
  simp [nextTargetOf, List.isEmpty_iff, hP]

theorem ne_of_get?_some {P p : List Step} {s : Step}
    (h : P.get? p.length = some s) : p ≠ P := by
  intro he
  subst he
  rw [List.get?_eq_none.mpr (le_refl _)] at h
  exact Option.noConfusion h

theorem get?_of_proper_prefix {p P : List Step} (hpre : p <+: P) (hne : p ≠ P) :
    ∃ s, P.get? p.length = some s := by
  have hlt : p.length < P.length := by
    rcases Nat.lt_or_ge p.length P.length with h | h
    · exact h
    · exact absurd (hpre.eq_of_length (Nat.le_antisymm hpre.length_le h)) hne
  exact ⟨P.get ⟨p.length, hlt⟩, List.get?_eq_get hlt⟩

theorem prefix_drop_nil {p P : List Step} (hpre : p <+: P) :
    P.drop p.length = [] ↔ p = P := by
  constructor
  · intro h
    obtain ⟨u, hu⟩ := hpre
    rw [← hu, List.drop_left] at h
    rw [← hu, h, List.append_nil]
  · intro h
    subst h
    exact List.drop_length _

theorem reachableB_scalar_cons (node : Json) (s : Step) (r : List Step)
    (hs : ∀ es, node ≠ .obj es) (ha : ∀ l, node ≠ .arr l) :
    reachableB node (s :: r) = false := by
  cases node with
  | obj es => exact absurd rfl (hs es)
  | arr l => exact absurd rfl (ha l)
  | null => cases s <;> simp [reachableB]
  | bool b => cases s <;> simp [reachableB]
  | num n => cases s <;> simp [reachableB]
  | str s' => cases s <;> simp [reachableB]

theorem reachableB_nil (node : Json) : reachableB node [] = true := by
  cases node <;> simp [reachableB]

theorem groupVal_pass1 (es : List (String × Json)) (nt : Option Step)
    (it : Option ITree) (g : GroupId) (ks : List String)
    (h : (g, ks) ∈ (pass1 es nt it).2) :
    ks = (groupCandidates es nt it).filter (fun k => groupIdOf es k = g) := by
  have hl := lookupG_of_mem (pass1_keys_nodup es nt it) h
  rw [lookupG_pass1] at hl
  by_cases he :
      ((groupCandidates es nt it).filter (fun k => groupIdOf es k = g)).isEmpty
  · rw [if_pos he] at hl
    exact Option.noConfusion hl
  · rw [if_neg he] at hl
    exact (Option.some_inj.mp hl).symm

theorem group_buildItems_facts (es : List (String × Json)) (nt : Option Step)
    (ks : List String) (gid : GroupId)
    (h : Item.group ks gid ∈ buildItems es nt none) :
    ks ≠ [] ∧ ∀ k ∈ ks, nt ≠ some (.key k) ∧ isCandidate es k = true := by
  unfold buildItems at h
  rw [mem_sortByLe, mem_group_preItems, dissolve_snd, List.mem_filter] at h
  obtain ⟨hmem, hlen⟩ := h
  have hks := groupVal_pass1 es nt none gid ks hmem
  constructor
  · intro hnil
    rw [hnil] at hlen
    simp at hlen
  · intro k hk
    rw [hks] at hk
    have hkc : k ∈ groupCandidates es nt none := (List.mem_filter.mp hk).1
    unfold groupCandidates at hkc
    have hr := (List.mem_filter.mp hkc).2
    simp only [reachesGroupB, Bool.and_eq_true, Bool.not_eq_true',
      decide_eq_false_iff_not] at hr
    exact ⟨hr.1, hr.2⟩

theorem single_buildItems_mem (es : List (String × Json)) (nt : Option Step)
    (k : String) (h : Item.single k ∈ buildItems es nt none) :
    k ∈ es.map Prod.fst := by
  unfold buildItems at h
  rw [mem_sortByLe, mem_single_preItems, List.mem_append] at h
  rcases h with h | h
  · rw [pass1_fst] at h
    exact (List.mem_filter.mp h).1
  · rw [dissolve_fst] at h
    rcases List.mem_bind.mp h with ⟨gp, hgp, hk⟩
    have hgp' : gp ∈ (pass1 es nt none).2 := List.mem_of_mem_filter hgp
    obtain ⟨g, ks⟩ := gp
    have hks := groupVal_pass1 es nt none g ks hgp'
    rw [hks] at hk
    have hkc : k ∈ groupCandidates es nt none := (List.mem_filter.mp hk).1
    exact List.mem_of_mem_filter hkc

theorem single_target_buildItems (es : List (String × Json)) (k : String)
    (hk : k ∈ es.map Prod.fst) :
    Item.single k ∈ buildItems es (some (.key k)) none := by
  unfold buildItems
  rw [mem_sortByLe, mem_single_preItems, List.mem_append]
  left
  rw [pass1_fst, List.mem_filter]
  refine ⟨hk, ?_⟩
  simp [keptB, reachesGroupB]

theorem addToGroups_bind_perm (gs : List (GroupId × List String)) (g : GroupId)
    (k : String) :
    ((addToGroups gs g k).bind Prod.snd).Perm (gs.bind Prod.snd ++ [k]) := by
  induction gs with
  | nil => simp [addToGroups]
  | cons p rest ih =>
      obtain ⟨g', ks'⟩ := p
      by_cases hg : g' = g
      · subst hg
        have he : addToGroups ((g', ks') :: rest) g' k = (g', ks' ++ [k]) :: rest := by
          simp [addToGroups]
        rw [he]
        show ((ks' ++ [k]) ++ rest.bind Prod.snd).Perm
          ((ks' ++ rest.bind Prod.snd) ++ [k])
        rw [List.append_assoc, List.append_assoc]
        exact List.Perm.append_left ks' List.perm_append_comm
      · have he : addToGroups ((g', ks') :: rest) g k
            = (g', ks') :: addToGroups rest g k := by
          simp [addToGroups, hg]
        rw [he]
        show (ks' ++ (addToGroups rest g k).bind Prod.snd).Perm
          ((ks' ++ rest.bind Prod.snd) ++ [k])
        rw [List.append_assoc]
        exact List.Perm.append_left ks' ih

theorem buildGroups_bind_perm (es : List (String × Json)) :
    ∀ (ks : List String) (gs : List (GroupId × List String)),
    ((buildGroups es gs ks).bind Prod.snd).Perm (gs.bind Prod.snd ++ ks) := by
  intro ks
  induction ks with
  | nil =>
      intro gs
      simp [buildGroups]
  | cons k rest ih =>
      intro gs
      show ((buildGroups es (addToGroups gs (groupIdOf es k) k) rest).bind
          Prod.snd).Perm (gs.bind Prod.snd ++ (k :: rest))
      refine (ih (addToGroups gs (groupIdOf es k) k)).trans ?_
      refine ((addToGroups_bind_perm gs (groupIdOf es k) k).append_right rest).trans ?_
      rw [List.append_assoc, List.singleton_append]

theorem dissolve_bind_perm (gs : List (GroupId × List String)) :
    ((dissolve gs).1 ++ (dissolve gs).2.bind Prod.snd).Perm (gs.bind Prod.snd) := by
  rw [dissolve_fst, dissolve_snd, ← List.append_bind]
  refine List.Perm.bind_right Prod.snd ?_
  exact List.perm_append_comm.trans
    (List.filter_append_perm (fun p => decide (p.2.length > 1)) gs)

theorem map_single_bind_itemKeys (l : List String) :
    ((l.map Item.single).bind itemKeys) = l := by
  induction l with
  | nil => simp
  | cons k rest ih => simp [itemKeys, ih]

theorem map_group_bind_itemKeys (gl : List (GroupId × List String)) :
    ((gl.map (fun g => Item.group g.2 g.1)).bind itemKeys) = gl.bind Prod.snd := by
  induction gl with
  | nil => simp
  | cons p rest ih => simp [itemKeys, ih]

theorem buildItems_bind_perm (es : List (String × Json)) (nt : Option Step) :
    (((buildItems es nt none).bind itemKeys)).Perm (es.map Prod.fst) := by
  have hs : ((buildItems es nt none).bind itemKeys).Perm
      ((preItems es nt none).bind itemKeys) :=
    (sortByLe_perm _ _).bind_right itemKeys
  refine hs.trans ?_
  unfold preItems
  show ((((pass1 es nt none).1 ++ (dissolve (pass1 es nt none).2).1).map Item.single
      ++ (dissolve (pass1 es nt none).2).2.map
        (fun g => Item.group g.2 g.1)).bind itemKeys).Perm _
  have hsplit : ((((pass1 es nt none).1 ++ (dissolve (pass1 es nt none).2).1).map
        Item.single
      ++ (dissolve (pass1 es nt none).2).2.map
        (fun g => Item.group g.2 g.1)).bind itemKeys)
      = ((((pass1 es nt none).1 ++ (dissolve (pass1 es nt none).2).1).map
          Item.single).bind itemKeys)
        ++ (((dissolve (pass1 es nt none).2).2.map
          (fun g => Item.group g.2 g.1)).bind itemKeys) :=
    List.append_bind _ _ _
  rw [hsplit, map_single_bind_itemKeys, map_group_bind_itemKeys, List.append_assoc]
  refine (List.Perm.append_left _ (dissolve_bind_perm _)).trans ?_
  rw [pass1_fst, pass1_snd]
  refine (List.Perm.append_left _
    (buildGroups_bind_perm es (groupCandidates es nt none) [])).trans ?_
  show (((es.map Prod.fst).filter
      (fun k => keptB none k && !(reachesGroupB es nt none k)))
      ++ groupCandidates es nt none).Perm (es.map Prod.fst)
  have hkept : ((es.map Prod.fst).filter
      (fun k => keptB none k && !(reachesGroupB es nt none k)))
      = (es.map Prod.fst).filter (fun k => !(reachesGroupB es nt none k)) := by
    apply List.filter_congr
    intro k _
    simp [keptB]
  rw [hkept]
  unfold groupCandidates
  exact List.perm_append_comm.trans
    (List.filter_append_perm (reachesGroupB es nt none) (es.map Prod.fst))

theorem buildItems_bind_nodup (es : List (String × Json)) (nt : Option Step)
    (hnd : (es.map Prod.fst).Nodup) :
    ((buildItems es nt none).bind itemKeys).Nodup :=
  (buildItems_bind_perm es nt).nodup_iff.mpr hnd

theorem reachableB_obj_idx (es : List (String × Json)) (i : Int) (r : List Step) :
    reachableB (.obj es) (.idx i :: r) = false := rfl

theorem reachableB_arr_key (l : List Json) (k : String) (r : List Step) :
    reachableB (.arr l) (.key k :: r) = false := rfl

theorem printTree_scalar_eq (node : Json) (p : List Step) (d : Nat)
    (tp : Option (List Step)) (lst : Bool) (pre : String)
    (hs : ∀ es, node ≠ .obj es) (ha : ∀ l, node ≠ .arr l) :
    printTree node p d tp lst pre none none =
      ⟨[(selfLine node p d tp lst pre none).1], [p],
       if (selfLine node p d tp lst pre none).2 then
         [(p, (selfLine node p d tp lst pre none).1)] else [], []⟩ := by
  cases node with
  | obj es => exact absurd rfl (hs es)
  | arr l => exact absurd rfl (ha l)
  | null => simp [printTree]
  | bool b => simp [printTree]
  | num n => simp [printTree]
  | str s => simp [printTree]

/-- A node rendered with no children: the target marker appears on its own line
exactly when the remaining target path is empty, i.e. this node is the target. -/
theorem selfOnly_marked (node : Json) (p : List Step) (d : Nat) (P : List Step)
    (lst : Bool) (pre : String) (hP : P ≠ [])
    (heq : printTree node p d (some P) lst pre none none
        = ⟨[(selfLine node p d (some P) lst pre none).1], [p],
           if (selfLine node p d (some P) lst pre none).2 then
             [(p, (selfLine node p d (some P) lst pre none).1)] else [], []⟩)
    (hsc : ∀ s r, reachableB node (s :: r) = false) :
    (¬(p <+: P ∧ reachableB node (P.drop p.length) = true) →
      (printTree node p d (some P) lst pre none none).marked = []) ∧
    ((p <+: P ∧ reachableB node (P.drop p.length) = true) →
      ∃ s, (printTree node p d (some P) lst pre none none).marked = [(P, s)] ∧
        (" <--- TARGET" : String).data <:+ s.data ∧
        s ∈ (printTree node p d (some P) lst pre none none).lines) := by
  rw [heq]
  constructor
  · intro hc
    have hne : ¬((selfLine node p d (some P) lst pre none).2 = true) := by
      rw [selfLine_marked_iff node p P d lst pre hP]
      intro hPp
      apply hc
      refine ⟨?_, ?_⟩
      · rw [hPp]
      · rw [hPp, List.drop_length]
        exact reachableB_nil node
    show (if (selfLine node p d (some P) lst pre none).2 = true then
        [(p, (selfLine node p d (some P) lst pre none).1)] else []) = []
    rw [if_neg hne]
  · rintro ⟨hpre, hreach⟩
    have hdrop : P.drop p.length = [] := by
      cases hd : P.drop p.length with
      | nil => rfl
      | cons s r =>
          rw [hd, hsc s r] at hreach
          exact Bool.noConfusion hreach
    have hPp : P = p := ((prefix_drop_nil hpre).mp hdrop).symm
    have hmk : (selfLine node p d (some P) lst pre none).2 = true :=
      (selfLine_marked_iff node p P d lst pre hP).mpr hPp
    refine ⟨(selfLine node p d (some P) lst pre none).1, ?_, ?_, ?_⟩
    · show (if (selfLine node p d (some P) lst pre none).2 = true then
          [(p, (selfLine node p d (some P) lst pre none).1)] else [])
        = [(P, (selfLine node p d (some P) lst pre none).1)]
      rw [if_pos hmk, hPp]
    · exact selfLine_target_suffix node p d (some P) lst pre hmk
    · exact List.mem_cons_self _ _

mutual
/-- C3 core: in a path-guided run (no query), the marker lands exactly on the
node whose path is the whole target path, and only when the remaining target
path is reachable from the current node. -/
theorem printTree_marked (node : Json) (p : List Step) (d : Nat) (P : List Step)
    (lst : Bool) (pre : String) (hP : P ≠ []) (hwf : wfB node = true) :
    (¬(p <+: P ∧ reachableB node (P.drop p.length) = true) →
      (printTree node p d (some P) lst pre none none).marked = []) ∧
    ((p <+: P ∧ reachableB node (P.drop p.length) = true) →
      ∃ s, (printTree node p d (some P) lst pre none none).marked = [(P, s)] ∧
        (" <--- TARGET" : String).data <:+ s.data ∧
        s ∈ (printTree node p d (some P) lst pre none none).lines) := by
  cases node with
  | null =>
      exact selfOnly_marked _ p d P lst pre hP
        (printTree_scalar_eq _ p d (some P) lst pre (fun es => by simp)
          (fun l => by simp))
        (fun s r => reachableB_scalar_cons _ s r (fun es => by simp) (fun l => by simp))
  | bool b =>
      exact selfOnly_marked _ p d P lst pre hP
        (printTree_scalar_eq _ p d (some P) lst pre (fun es => by simp)
          (fun l => by simp))
        (fun s r => reachableB_scalar_cons _ s r (fun es => by simp) (fun l => by simp))
  | num n =>
      exact selfOnly_marked _ p d P lst pre hP
        (printTree_scalar_eq _ p d (some P) lst pre (fun es => by simp)
          (fun l => by simp))
        (fun s r => reachableB_scalar_cons _ s r (fun es => by simp) (fun l => by simp))
  | str s =>
      exact selfOnly_marked _ p d P lst pre hP
        (printTree_scalar_eq _ p d (some P) lst pre (fun es => by simp)
          (fun l => by simp))
        (fun s r => reachableB_scalar_cons _ s r (fun es => by simp) (fun l => by simp))
  | obj es =>
      have hdict := processDict_marked es p d P (childPrefixOf d pre lst) hP hwf
      have hm : (printTree (Json.obj es) p d (some P) lst pre none none).marked
          = (if (selfLine (Json.obj es) p d (some P) lst pre none).2 = true then
              [(p, (selfLine (Json.obj es) p d (some P) lst pre none).1)] else [])
            ++ (processDictChildren es p d (some P) (childPrefixOf d pre lst)
                none none).marked := by
        simp only [printTree]
        rfl
      have hl : (printTree (Json.obj es) p d (some P) lst pre none none).lines
          = (selfLine (Json.obj es) p d (some P) lst pre none).1
            :: (processDictChildren es p d (some P) (childPrefixOf d pre lst)
                none none).lines := by
        simp only [printTree]
        rfl
      constructor
      · intro hc
        rw [hm]
        have hself : ¬((selfLine (Json.obj es) p d (some P) lst pre none).2 = true) := by
          rw [selfLine_marked_iff _ _ _ _ _ _ hP]
          intro hPp
          exact hc ⟨by rw [hPp],
            by rw [hPp, List.drop_length]; exact reachableB_nil _⟩
        rw [if_neg hself, List.nil_append]
        refine hdict.1 ?_
        rintro ⟨h1, _, h3⟩
        exact hc ⟨h1, h3⟩
      · rintro ⟨hpre, hreach⟩
        rw [hm, hl]
        by_cases hPp : P = p
        · have hmk := (selfLine_marked_iff (Json.obj es) p P d lst pre hP).mpr hPp
          have hdm : (processDictChildren es p d (some P) (childPrefixOf d pre lst)
              none none).marked = [] := by
            refine hdict.1 ?_
            rintro ⟨_, h2, _⟩
            exact h2 hPp.symm
          rw [if_pos hmk, hdm, List.append_nil]
          refine ⟨(selfLine (Json.obj es) p d (some P) lst pre none).1, ?_, ?_, ?_⟩
          · rw [hPp]
          · exact selfLine_target_suffix _ _ _ _ _ _ hmk
          · exact List.mem_cons_self _ _
        · have hself : ¬((selfLine (Json.obj es) p d (some P) lst pre none).2 = true) := by
            rw [selfLine_marked_iff _ _ _ _ _ _ hP]
            exact hPp
          obtain ⟨s, hms, hsuf, hsl⟩ := hdict.2 ⟨hpre, fun h => hPp h.symm, hreach⟩
          rw [if_neg hself, List.nil_append, hms]
          exact ⟨s, rfl, hsuf, List.mem_cons_of_mem _ hsl⟩
  | arr items =>
      by_cases hemp : items.isEmpty = true
      · have hitems : items = [] := List.isEmpty_iff.mp hemp
        subst hitems
        exact selfOnly_marked _ p d P lst pre hP (by simp [printTree])
          (fun s r => by
            cases s with
            | key k => rfl
            | idx i =>
                rw [reachableB_arr_cons]
                have hj : jgetOpt [] i = none := by
                  unfold jgetOpt
                  rw [dif_neg]
                  rintro ⟨h1, h2⟩
                  simp at h2
                rw [hj])
      · rw [Bool.not_eq_true] at hemp
        have hlen : 0 < items.length := by
          cases items with
          | nil => simp at hemp
          | cons a l => simp
        have hix2 : indicesToVisit items.length p.length (some P) none none
            = (match P.get? p.length with
               | some (Step.idx i) =>
                   if 0 ≤ i ∧ i < (items.length : Int) then [i] else [0]
               | _ => [0]) :=
          indicesToVisit_default items.length p.length (some P) none none rfl
        have hm : (printTree (Json.arr items) p d (some P) lst pre none none).marked
            = (if (selfLine (Json.arr items) p d (some P) lst pre none).2 = true then
                [(p, (selfLine (Json.arr items) p d (some P) lst pre none).1)] else [])
              ++ (processIdxChildren items
                  (indicesToVisit items.length p.length (some P) none none)
                  p d (some P) (childPrefixOf d pre lst) none none).marked := by
          simp only [printTree, hemp, Bool.false_eq_true, if_false]
          rfl
        have hl : (printTree (Json.arr items) p d (some P) lst pre none none).lines
            = (selfLine (Json.arr items) p d (some P) lst pre none).1
              :: (processIdxChildren items
                  (indicesToVisit items.length p.length (some P) none none)
                  p d (some P) (childPrefixOf d pre lst) none none).lines := by
          simp only [printTree, hemp, Bool.false_eq_true, if_false]
          rfl
        cases hstep : P.get? p.length with
        | none =>
            have hixv : indicesToVisit items.length p.length (some P) none none
                = [0] := by
              rw [hix2, hstep]
            have hidx := processIdx_marked items [0] p d P (childPrefixOf d pre lst)
              hP hwf (List.nodup_singleton 0)
            have hidxm : (processIdxChildren items [0] p d (some P)
                (childPrefixOf d pre lst) none none).marked = [] := by
              refine hidx.1 ?_
              rintro ⟨_, i, hget, _, _⟩
              rw [hstep] at hget
              exact Option.noConfusion hget
            constructor
            · intro hc
              rw [hm, hixv, hidxm, List.append_nil]
              have hself : ¬((selfLine (Json.arr items) p d (some P) lst pre
                  none).2 = true) := by
                rw [selfLine_marked_iff _ _ _ _ _ _ hP]
                intro hPp
                exact hc ⟨by rw [hPp],
                  by rw [hPp, List.drop_length]; exact reachableB_nil _⟩
              rw [if_neg hself]
            · rintro ⟨hpre, hreach⟩
              have hPp : P = p := by
                have hle : P.length ≤ p.length := List.get?_eq_none.mp hstep
                exact (hpre.eq_of_length (Nat.le_antisymm hpre.length_le hle)).symm
              have hmk := (selfLine_marked_iff (Json.arr items) p P d lst pre
                hP).mpr hPp
              rw [hm, hl, hixv, hidxm, List.append_nil, if_pos hmk]
              refine ⟨(selfLine (Json.arr items) p d (some P) lst pre none).1,
                ?_, ?_, ?_⟩
              · rw [hPp]
              · exact selfLine_target_suffix _ _ _ _ _ _ hmk
              · exact List.mem_cons_self _ _
        | some step =>
            have hpP : p ≠ P := ne_of_get?_some hstep
            have hself : ¬((selfLine (Json.arr items) p d (some P) lst pre
                none).2 = true) := by
              rw [selfLine_marked_iff _ _ _ _ _ _ hP]
              intro hPp
              exact hpP hPp.symm
            have hdrop := drop_cons_of_get P p.length step hstep
            cases step with
            | key k =>
                have hixv : indicesToVisit items.length p.length (some P) none none
                    = [0] := by
                  rw [hix2, hstep]
                have hreachF : reachableB (Json.arr items) (P.drop p.length)
                    = false := by
                  rw [hdrop, reachableB_arr_key]
                have hidx := processIdx_marked items [0] p d P
                  (childPrefixOf d pre lst) hP hwf (List.nodup_singleton 0)
                have hidxm : (processIdxChildren items [0] p d (some P)
                    (childPrefixOf d pre lst) none none).marked = [] := by
                  refine hidx.1 ?_
                  rintro ⟨_, i, hget, _, _⟩
                  rw [hstep] at hget
                  exact Step.noConfusion (Option.some_inj.mp hget)
                constructor
                · intro _
                  rw [hm, hixv, hidxm, List.append_nil, if_neg hself]
                · rintro ⟨_, hreach⟩
                  rw [hreachF] at hreach
                  exact Bool.noConfusion hreach
            | idx i =>
                by_cases hinb : 0 ≤ i ∧ i < (items.length : Int)
                · have hixv : indicesToVisit items.length p.length (some P)
                      none none = [i] := by
                    rw [hix2, hstep]
                    exact if_pos hinb
                  have hjb : 0 ≤ i ∧ i.toNat < items.length :=
                    ⟨hinb.1, by omega⟩
                  have hjget : jgetOpt items i
                      = some (items.get ⟨i.toNat, hjb.2⟩) := by
                    unfold jgetOpt
                    rw [dif_pos hjb]
                  have hjv : jget items i = items.get ⟨i.toNat, hjb.2⟩ := by
                    unfold jget
                    rw [hjget]
                    rfl
                  have hre : reachableB (Json.arr items) (P.drop p.length)
                      = reachableB (jget items i) (P.drop (p.length + 1)) := by
                    rw [hdrop, reachableB_arr_cons, hjget, hjv]
                  have hidx := processIdx_marked items [i] p d P
                    (childPrefixOf d pre lst) hP hwf (List.nodup_singleton i)
                  constructor
                  · intro hc
                    rw [hm, hixv, if_neg hself, List.nil_append]
                    refine hidx.1 ?_
                    rintro ⟨hp, i', hget', hmem', hre'⟩
                    have hii : i' = i := by
                      rw [hstep] at hget'
                      exact (Step.idx.inj (Option.some_inj.mp hget')).symm
                    rw [hii] at hre'
                    exact hc ⟨hp, by rw [hre]; exact hre'⟩
                  · rintro ⟨hpre, hreach⟩
                    rw [hre] at hreach
                    obtain ⟨s, hms, hsuf, hsl⟩ := hidx.2
                      ⟨hpre, i, hstep, List.mem_singleton_self i, hreach⟩
                    rw [hm, hl, hixv, if_neg hself, List.nil_append, hms]
                    exact ⟨s, rfl, hsuf, List.mem_cons_of_mem _ hsl⟩
                · have hixv : indicesToVisit items.length p.length (some P)
                      none none = [0] := by
                    rw [hix2, hstep]
                    exact if_neg hinb
                  have hjnone : jgetOpt items i = none := by
                    unfold jgetOpt
                    rw [dif_neg]
                    rintro ⟨h1, h2⟩
                    exact hinb ⟨h1, by omega⟩
                  have hreachF : reachableB (Json.arr items) (P.drop p.length)
                      = false := by
                    rw [hdrop, reachableB_arr_cons, hjnone]
                  have hidx := processIdx_marked items [0] p d P
                    (childPrefixOf d pre lst) hP hwf (List.nodup_singleton 0)
                  have hidxm : (processIdxChildren items [0] p d (some P)
                      (childPrefixOf d pre lst) none none).marked = [] := by
                    refine hidx.1 ?_
                    rintro ⟨_, i', hget', hmem', _⟩
                    have hii : i' = i := by
                      rw [hstep] at hget'
                      exact (Step.idx.inj (Option.some_inj.mp hget')).symm
                    rw [List.mem_singleton] at hmem'
                    rw [hmem'] at hii
                    rw [← hii] at hinb
                    exact hinb ⟨le_refl 0, by exact_mod_cast hlen⟩
                  constructor
                  · intro _
                    rw [hm, hixv, hidxm, List.append_nil, if_neg hself]
                  · rintro ⟨_, hreach⟩
                    rw [hreachF] at hreach
                    exact Bool.noConfusion hreach
  termination_by (4 * sizeOf node, 0)
  decreasing_by
    all_goals subst_vars
    all_goals simp_wf
    all_goals exact Prod.Lex.left _ _ (by omega)

theorem processIdx_marked (items : List Json) (ixs : List Int) (p : List Step)
    (d : Nat) (P : List Step) (cpre : String) (hP : P ≠ [])
    (hwf : wfB (Json.arr items) = true) (hnd : ixs.Nodup) :
    (¬(p <+: P ∧ ∃ i, P.get? p.length = some (Step.idx i) ∧ i ∈ ixs ∧
        reachableB (jget items i) (P.drop (p.length + 1)) = true) →
      (processIdxChildren items ixs p d (some P) cpre none none).marked = []) ∧
    ((p <+: P ∧ ∃ i, P.get? p.length = some (Step.idx i) ∧ i ∈ ixs ∧
        reachableB (jget items i) (P.drop (p.length + 1)) = true) →
      ∃ s, (processIdxChildren items ixs p d (some P) cpre none none).marked
          = [(P, s)] ∧
        (" <--- TARGET" : String).data <:+ s.data ∧
        s ∈ (processIdxChildren items ixs p d (some P) cpre none none).lines) := by
  cases hxs : ixs with
  | nil =>
      constructor
      · intro _
        simp [processIdxChildren]
      · rintro ⟨_, i, _, hmem, _⟩
        simp at hmem
  | cons i₀ rest =>
      have hwfc : wfB (jget items i₀) = true := wfB_jget items i₀ hwf
      have hchild := printTree_marked (jget items i₀) (p ++ [Step.idx i₀]) (d + 1)
        P rest.isEmpty cpre hP hwfc
      have hndr : rest.Nodup := by
        have h := hnd
        rw [hxs] at h
        exact (List.nodup_cons.mp h).2
      have hrest := processIdx_marked items rest p d P cpre hP hwf hndr
      have hm : (processIdxChildren items (i₀ :: rest) p d (some P) cpre
          none none).marked
          = (printTree (jget items i₀) (p ++ [Step.idx i₀]) (d + 1) (some P)
              rest.isEmpty cpre none none).marked
            ++ (processIdxChildren items rest p d (some P) cpre none none).marked := by
        simp only [processIdxChildren]
        rfl
      have hli : (processIdxChildren items (i₀ :: rest) p d (some P) cpre
          none none).lines
          = (printTree (jget items i₀) (p ++ [Step.idx i₀]) (d + 1) (some P)
              rest.isEmpty cpre none none).lines
            ++ (processIdxChildren items rest p d (some P) cpre none none).lines := by
        simp only [processIdxChildren]
        rfl
      constructor
      · intro hc
        rw [hm]
        have hcm : (printTree (jget items i₀) (p ++ [Step.idx i₀]) (d + 1) (some P)
            rest.isEmpty cpre none none).marked = [] := by
          refine hchild.1 ?_
          rintro ⟨hpre', hreach'⟩
          rcases (prefix_snoc_iff p P (Step.idx i₀)).mp hpre' with ⟨hp, hget⟩
          exact hc ⟨hp, i₀, hget, List.mem_cons_self _ _, by simpa using hreach'⟩
        have hrm : (processIdxChildren items rest p d (some P) cpre
            none none).marked = [] := by
          refine hrest.1 ?_
          rintro ⟨hp, i, hget, hmem, hre⟩
          exact hc ⟨hp, i, hget, List.mem_cons_of_mem _ hmem, hre⟩
        rw [hcm, hrm]
        rfl
      · rintro ⟨hp, i, hget, hmem, hre⟩
        rw [hm, hli]
        by_cases hi : i = i₀
        · subst hi
          obtain ⟨s, hms, hsuf, hsl⟩ := hchild.2
            ⟨(prefix_snoc_iff p P (Step.idx i)).mpr ⟨hp, hget⟩, by simpa using hre⟩
          have hrm : (processIdxChildren items rest p d (some P) cpre
              none none).marked = [] := by
            refine hrest.1 ?_
            rintro ⟨hp', i', hget', hmem', hre'⟩
            have hii : i' = i := by
              rw [hget] at hget'
              exact (Step.idx.inj (Option.some_inj.mp hget')).symm
            rw [hii] at hmem'
            have h := hnd
            rw [hxs] at h
            exact (List.nodup_cons.mp h).1 hmem'
          rw [hms, hrm, List.append_nil]
          exact ⟨s, rfl, hsuf, List.mem_append_left _ hsl⟩
        · have hmem' : i ∈ rest := by
            rcases List.mem_cons.mp hmem with h | h
            · exact absurd h hi
            · exact h
          have hcm : (printTree (jget items i₀) (p ++ [Step.idx i₀]) (d + 1) (some P)
              rest.isEmpty cpre none none).marked = [] := by
            refine hchild.1 ?_
            rintro ⟨hpre', _⟩
            rcases (prefix_snoc_iff p P (Step.idx i₀)).mp hpre' with ⟨_, hget'⟩
            rw [hget] at hget'
            exact hi (Step.idx.inj (Option.some_inj.mp hget'))
          obtain ⟨s, hms, hsuf, hsl⟩ := hrest.2 ⟨hp, i, hget, hmem', hre⟩
          rw [hcm, hms, List.nil_append]
          exact ⟨s, rfl, hsuf, List.mem_append_right _ hsl⟩
  termination_by (4 * sizeOf items + 2, ixs.length)
  decreasing_by
    all_goals simp_wf
    · have h := sizeOf_jget_le items i₀
      exact Prod.Lex.left _ _ (by omega)
    · subst hxs
      exact Prod.Lex.right _ (by simp [List.length_cons])

theorem processDict_marked (es : List (String × Json)) (p : List Step) (d : Nat)
    (P : List Step) (pre : String) (hP : P ≠ [])
    (hwf : wfB (Json.obj es) = true) :
    (¬(p <+: P ∧ p ≠ P ∧ reachableB (Json.obj es) (P.drop p.length) = true) →
      (processDictChildren es p d (some P) pre none none).marked = []) ∧
    ((p <+: P ∧ p ≠ P ∧ reachableB (Json.obj es) (P.drop p.length) = true) →
      ∃ s, (processDictChildren es p d (some P) pre none none).marked = [(P, s)] ∧
        (" <--- TARGET" : String).data <:+ s.data ∧
        s ∈ (processDictChildren es p d (some P) pre none none).lines) := by
  have hnt : nextTargetOf (some P) p.length = P.get? p.length :=
    nextTargetOf_some P p.length hP
  have hnd : ((buildItems es (nextTargetOf (some P) p.length) none).bind
      itemKeys).Nodup :=
    buildItems_bind_nodup es _ ((wfB_obj es).mp hwf).1
  have hgr : ∀ ks gid,
      Item.group ks gid ∈ buildItems es (nextTargetOf (some P) p.length) none →
      ks ≠ [] ∧ ∀ k ∈ ks, P.get? p.length ≠ some (Step.key k) ∧
        isCandidate es k = true := by
    intro ks gid hmem
    have h := group_buildItems_facts es _ ks gid hmem
    refine ⟨h.1, fun k hk => ⟨?_, (h.2 k hk).2⟩⟩
    have h2 := (h.2 k hk).1
    rw [hnt] at h2
    exact h2
  have hpi := processItems_marked es
    (buildItems es (nextTargetOf (some P) p.length) none) p d P pre hP hwf hnd hgr
  have hpd : processDictChildren es p d (some P) pre none none
      = processItems es (buildItems es (nextTargetOf (some P) p.length) none)
          p d (some P) pre none none := by
    rw [processDictChildren]
  rw [hpd]
  constructor
  · intro hc
    refine hpi.1 ?_
    rintro ⟨hp, k, hget, hmem, hre⟩
    apply hc
    have hkmem : k ∈ es.map Prod.fst := single_buildItems_mem es _ k hmem
    have hlk : ∃ v, lookupJ es k = some v := by
      cases hv : lookupJ es k with
      | none => exact absurd hkmem ((lookupJ_none_iff es k).mp hv)
      | some v => exact ⟨v, rfl⟩
    obtain ⟨v, hv⟩ := hlk
    refine ⟨hp, ne_of_get?_some hget, ?_⟩
    rw [drop_cons_of_get P p.length _ hget, reachableB_obj_cons, hv]
    have hjl : jlookup es k = v := by
      unfold jlookup
      rw [hv]
      rfl
    rw [← hjl]
    exact hre
  · rintro ⟨hp, hne, hre⟩
    apply hpi.2
    obtain ⟨step, hget⟩ := get?_of_proper_prefix hp hne
    rw [drop_cons_of_get P p.length step hget] at hre
    cases step with
    | idx i =>
        rw [reachableB_obj_idx] at hre
        exact Bool.noConfusion hre
    | key k =>
        rw [reachableB_obj_cons] at hre
        cases hv : lookupJ es k with
        | none =>
            simp only [hv] at hre
            exact Bool.noConfusion hre
        | some v =>
            simp only [hv] at hre
            refine ⟨hp, k, hget, ?_, ?_⟩
            · rw [hnt, hget]
              exact single_target_buildItems es k
                (List.mem_map_of_mem Prod.fst (lookupJ_mem hv))
            · have hjl : jlookup es k = v := by
                unfold jlookup
                rw [hv]
                rfl
              rw [hjl]
              exact hre
  termination_by (4 * sizeOf es + 3, 0)
  decreasing_by
    all_goals simp_wf
    all_goals exact Prod.Lex.left _ _ (by omega)

theorem processItems_marked (es : List (String × Json)) (items : List Item)
    (p : List Step) (d : Nat) (P : List Step) (pre : String) (hP : P ≠ [])
    (hwf : wfB (Json.obj es) = true)
    (hnd : (items.bind itemKeys).Nodup)
    (hgr : ∀ ks gid, Item.group ks gid ∈ items →
      ks ≠ [] ∧ ∀ k ∈ ks, P.get? p.length ≠ some (Step.key k) ∧
        isCandidate es k = true) :
    (¬(p <+: P ∧ ∃ k, P.get? p.length = some (Step.key k) ∧
        Item.single k ∈ items ∧
        reachableB (jlookup es k) (P.drop (p.length + 1)) = true) →
      (processItems es items p d (some P) pre none none).marked = []) ∧
    ((p <+: P ∧ ∃ k, P.get? p.length = some (Step.key k) ∧
        Item.single k ∈ items ∧
        reachableB (jlookup es k) (P.drop (p.length + 1)) = true) →
      ∃ s, (processItems es items p d (some P) pre none none).marked = [(P, s)] ∧
        (" <--- TARGET" : String).data <:+ s.data ∧
        s ∈ (processItems es items p d (some P) pre none none).lines) := by
  cases hits : items with
  | nil =>
      constructor
      · intro _
        simp [processItems]
      · rintro ⟨_, k, _, hmem, _⟩
        simp at hmem
  | cons item rest =>
      cases item with
      | single k₀ =>
          have hwfc : wfB (jlookup es k₀) = true := wfB_jlookup es k₀ hwf
          have hchild := printTree_marked (jlookup es k₀) (p ++ [Step.key k₀])
            (d + 1) P rest.isEmpty pre hP hwfc
          have hnd1 : (k₀ :: rest.bind itemKeys).Nodup := by
            have h := hnd
            rw [hits] at h
            exact h
          have hndr : (rest.bind itemKeys).Nodup := (List.nodup_cons.mp hnd1).2
          have hk₀nr : k₀ ∉ rest.bind itemKeys := (List.nodup_cons.mp hnd1).1
          have hgrr : ∀ ks gid, Item.group ks gid ∈ rest →
              ks ≠ [] ∧ ∀ k ∈ ks, P.get? p.length ≠ some (Step.key k) ∧
                isCandidate es k = true :=
            fun ks gid hm => hgr ks gid (by rw [hits]; exact List.mem_cons_of_mem _ hm)
          have hrest := processItems_marked es rest p d P pre hP hwf hndr hgrr
          have hm : (processItems es (Item.single k₀ :: rest) p d (some P) pre
              none none).marked
              = (printTree (jlookup es k₀) (p ++ [Step.key k₀]) (d + 1) (some P)
                  rest.isEmpty pre none none).marked
                ++ (processItems es rest p d (some P) pre none none).marked := by
            simp only [processItems]
            rfl
          have hli : (processItems es (Item.single k₀ :: rest) p d (some P) pre
              none none).lines
              = (printTree (jlookup es k₀) (p ++ [Step.key k₀]) (d + 1) (some P)
                  rest.isEmpty pre none none).lines
                ++ (processItems es rest p d (some P) pre none none).lines := by
            simp only [processItems]
            rfl
          constructor
          · intro hc
            rw [hm]
            have hcm : (printTree (jlookup es k₀) (p ++ [Step.key k₀]) (d + 1)
                (some P) rest.isEmpty pre none none).marked = [] := by
              refine hchild.1 ?_
              rintro ⟨hpre', hre'⟩
              rcases (prefix_snoc_iff p P (Step.key k₀)).mp hpre' with ⟨hp, hget⟩
              exact hc ⟨hp, k₀, hget, List.mem_cons_self _ _, by simpa using hre'⟩
            have hrm : (processItems es rest p d (some P) pre none none).marked
                = [] := by
              refine hrest.1 ?_
              rintro ⟨hp, k, hget, hmem, hre⟩
              exact hc ⟨hp, k, hget, List.mem_cons_of_mem _ hmem, hre⟩
            rw [hcm, hrm]
            rfl
          · rintro ⟨hp, k, hget, hmem, hre⟩
            rw [hm, hli]
            by_cases hk : k = k₀
            · subst hk
              obtain ⟨s, hms, hsuf, hsl⟩ := hchild.2
                ⟨(prefix_snoc_iff p P (Step.key k)).mpr ⟨hp, hget⟩,
                 by simpa using hre⟩
              have hrm : (processItems es rest p d (some P) pre none none).marked
                  = [] := by
                refine hrest.1 ?_
                rintro ⟨hp', k', hget', hmem', hre'⟩
                have hkk : k' = k := by
                  rw [hget] at hget'
                  exact (Step.key.inj (Option.some_inj.mp hget')).symm
                rw [hkk] at hmem'
                exact hk₀nr (List.mem_bind.mpr ⟨Item.single k, hmem',
                  by simp [itemKeys]⟩)
              rw [hms, hrm, List.append_nil]
              exact ⟨s, rfl, hsuf, List.mem_append_left _ hsl⟩
            · have hmem' : Item.single k ∈ rest := by
                rcases List.mem_cons.mp hmem with h | h
                · exact absurd (Item.single.inj h) hk
                · exact h
              have hcm : (printTree (jlookup es k₀) (p ++ [Step.key k₀]) (d + 1)
                  (some P) rest.isEmpty pre none none).marked = [] := by
                refine hchild.1 ?_
                rintro ⟨hpre', _⟩
                rcases (prefix_snoc_iff p P (Step.key k₀)).mp hpre' with ⟨_, hget'⟩
                rw [hget] at hget'
                exact hk (Step.key.inj (Option.some_inj.mp hget'))
              obtain ⟨s, hms, hsuf, hsl⟩ := hrest.2 ⟨hp, k, hget, hmem', hre⟩
              rw [hcm, hms, List.nil_append]
              exact ⟨s, rfl, hsuf, List.mem_append_right _ hsl⟩
      | group ks gid =>
          have hgks := hgr ks gid (by rw [hits]; exact List.mem_cons_self _ _)
          have hnd1 : (ks ++ rest.bind itemKeys).Nodup := by
            have h := hnd
            rw [hits] at h
            exact h
          have hndr : (rest.bind itemKeys).Nodup := (List.nodup_append.mp hnd1).2.1
          have hgrr : ∀ ks' gid', Item.group ks' gid' ∈ rest →
              ks' ≠ [] ∧ ∀ k ∈ ks', P.get? p.length ≠ some (Step.key k) ∧
                isCandidate es k = true :=
            fun ks' gid' hm =>
              hgr ks' gid' (by rw [hits]; exact List.mem_cons_of_mem _ hm)
          have hrest := processItems_marked es rest p d P pre hP hwf hndr hgrr
          have hfk : ks.headD "" ∈ ks := by
            cases ks with
            | nil => exact absurd rfl hgks.1
            | cons a l => exact List.mem_cons_self _ _
          have hntf := (hgks.2 _ hfk).1
          have hm : (processItems es (Item.group ks gid :: rest) p d (some P) pre
              none none).marked
              = (match jlookup es (ks.headD "") with
                 | Json.obj res =>
                     (processDictChildren res (p ++ [Step.key (ks.headD "")])
                       (d + 1) (some P)
                       (pre ++ (if rest.isEmpty then "    " else "|   "))
                       none none).marked
                 | _ => [])
                ++ (processItems es rest p d (some P) pre none none).marked := by
            simp only [processItems, ite_self]
            generalize (if rest.isEmpty then ("    " : String) else "|   ") = sfx
            split
            · rename_i res heq
              rw [heq]
              rfl
            · rename_i l heq
              rw [heq]
              rfl
            · rename_i hno hna
              cases hv : jlookup es (ks.headD "") with
              | obj res => exact absurd hv (hno res)
              | arr l => exact absurd hv (hna l)
              | null => rfl
              | bool b => rfl
              | num n => rfl
              | str sv => rfl
          have hli : (processItems es (Item.group ks gid :: rest) p d (some P) pre
              none none).lines
              = (pre ++ (if rest.isEmpty then "+--- " else "+--- ")
                  ++ ("\"" ++ labelPattern gid ++ "\" (ex.: \"" ++ ks.headD ""
                      ++ "\")"))
                :: ((match jlookup es (ks.headD "") with
                    | Json.obj res =>
                        (processDictChildren res (p ++ [Step.key (ks.headD "")])
                          (d + 1) (some P)
                          (pre ++ (if rest.isEmpty then "    " else "|   "))
                          none none).lines
                    | _ => [])
                  ++ (processItems es rest p d (some P) pre none none).lines) := by
            simp only [processItems, ite_self]
            generalize (if rest.isEmpty then ("    " : String) else "|   ") = sfx
            split
            · rename_i res heq
              rw [heq]
              rfl
            · rename_i l heq
              rw [heq]
              rfl
            · rename_i hno hna
              cases hv : jlookup es (ks.headD "") with
              | obj res => exact absurd hv (hno res)
              | arr l => exact absurd hv (hna l)
              | null => rfl
              | bool b => rfl
              | num n => rfl
              | str sv => rfl
          have hrepm : (match jlookup es (ks.headD "") with
              | Json.obj res =>
                  (processDictChildren res (p ++ [Step.key (ks.headD "")])
                    (d + 1) (some P)
                    (pre ++ (if rest.isEmpty then "    " else "|   "))
                    none none).marked
              | _ => ([] : List (List Step × String))) = [] := by
            cases hv : jlookup es (ks.headD "") with
            | obj res =>
                have hwfr : wfB (Json.obj res) = true := by
                  have h := wfB_jlookup es (ks.headD "") hwf
                  rw [hv] at h
                  exact h
                refine (processDict_marked res (p ++ [Step.key (ks.headD "")])
                  (d + 1) P (pre ++ (if rest.isEmpty then "    " else "|   "))
                  hP hwfr).1 ?_
                rintro ⟨hpre', _, _⟩
                rcases (prefix_snoc_iff p P (Step.key (ks.headD ""))).mp hpre'
                  with ⟨_, hget'⟩
                exact hntf hget'
            | null => rfl
            | bool b => rfl
            | num n => rfl
            | str s => rfl
            | arr l => rfl
          constructor
          · intro hc
            rw [hm, hrepm]
            have hrm : (processItems es rest p d (some P) pre none none).marked
                = [] := by
              refine hrest.1 ?_
              rintro ⟨hp, k, hget, hmem, hre⟩
              exact hc ⟨hp, k, hget, List.mem_cons_of_mem _ hmem, hre⟩
            rw [hrm]
            rfl
          · rintro ⟨hp, k, hget, hmem, hre⟩
            have hmem' : Item.single k ∈ rest := by
              rcases List.mem_cons.mp hmem with h | h
              · exact absurd h (by simp)
              · exact h
            obtain ⟨s, hms, hsuf, hsl⟩ := hrest.2 ⟨hp, k, hget, hmem', hre⟩
            rw [hm, hli, hrepm, hms, List.nil_append]
            exact ⟨s, rfl, hsuf,
              List.mem_cons_of_mem _ (List.mem_append_right _ hsl)⟩
  termination_by (4 * sizeOf es + 2, items.length)
  decreasing_by
    all_goals simp_wf
    all_goals first
      | (have h := sizeOf_jlookup_le es k₀
         exact Prod.Lex.left _ _ (by omega))
      | (have h := sizeOf_jlookup_le es (ks.headD "")
         rw [hv] at h
         simp at h
         exact Prod.Lex.left _ _ (by omega))
      | (subst hits
         exact Prod.Lex.right _ (by simp [List.length_cons]))
end

/-- C3 (amended): in a path-guided run over a well-formed value with a
NON-EMPTY target path `P`, the output carries the ` <--- TARGET` marker on
exactly one line — the line of the node whose accumulated path equals `P` —
when `P` is reachable (at each object level a present key, at each array level
an in-bounds index), and carries no marker at all when `P` is not reachable.
The original claim fails for the empty path: `if target_path` is false for
`[]`, so the root is never marked. -/
theorem target_marker_iff_reachable (v : Json) (P : List Step)
    (hP : P ≠ []) (hwf : wfB v = true) :
    (reachableB v P = true →
      ∃ s, (printTree v [] 0 (some P) true "" none none).marked = [(P, s)] ∧
        (" <--- TARGET" : String).data <:+ s.data ∧
        s ∈ (printTree v [] 0 (some P) true "" none none).lines) ∧
    (reachableB v P = false →
      (printTree v [] 0 (some P) true "" none none).marked = []) := by
  have h := printTree_marked v [] 0 P true "" hP hwf
  constructor
  · intro hre
    exact h.2 ⟨List.nil_prefix, by simpa using hre⟩
  · intro hre
    refine h.1 ?_
    rintro ⟨_, hre'⟩
    rw [List.length_nil, List.drop_zero, hre] at hre'
    exact Bool.noConfusion hre'

theorem target_marker_iff_reachable_witness :
    ([Step.key "a"] : List Step) ≠ [] ∧
    wfB (Json.obj [("a", Json.null)]) = true ∧
    ((reachableB (Json.obj [("a", Json.null)]) [Step.key "a"] = true →
      ∃ s, (printTree (Json.obj [("a", Json.null)]) [] 0 (some [Step.key "a"])
          true "" none none).marked = [([Step.key "a"], s)] ∧
        (" <--- TARGET" : String).data <:+ s.data ∧
        s ∈ (printTree (Json.obj [("a", Json.null)]) [] 0 (some [Step.key "a"])
          true "" none none).lines) ∧
    (reachableB (Json.obj [("a", Json.null)]) [Step.key "a"] = false →
      (printTree (Json.obj [("a", Json.null)]) [] 0 (some [Step.key "a"])
        true "" none none).marked = [])) :=
  ⟨by decide, by decide,
   target_marker_iff_reachable (Json.obj [("a", Json.null)]) [Step.key "a"]
     (by decide) (by decide)⟩

/-- C3 counterexample: with the empty target path — which denotes the root and
is trivially reachable — no marker is ever produced: Python's
`if target_path and current_path == target_path` treats the empty list as
falsy, so the root line `[root]` is printed without ` <--- TARGET`. -/
theorem target_marker_empty_path_cex :
    reachableB Json.null [] = true ∧
    (printTree Json.null [] 0 (some []) true "" none none).marked = [] ∧
    (printTree Json.null [] 0 (some []) true "" none none).lines = ["[root]"] ∧
    ∀ l ∈ (printTree Json.null [] 0 (some []) true "" none none).lines,
      ¬((" <--- TARGET" : String).data <:+ l.data) := by
  have heq : printTree Json.null [] 0 (some []) true "" none none
      = ⟨["[root]"], [[]], [], []⟩ := by
    simp [printTree, selfLine, tpTruthy, childPrefixOf]
  rw [heq]
  refine ⟨rfl, rfl, rfl, ?_⟩
  decide
